import Mathlib

/-!
# gobin-info: repository-URL resolution

A shallow embedding of `main.go` of `philippgille/gobin-info` and the
properties of its URL-resolution engine.

Modelling conventions.

* A Go `string` is a `List Char` (`GoString`): the text is taken to be valid
  UTF-8, `len` is the UTF-8 byte length (`goLen`).  The separators the program
  splits on (`/`, `//`) are ASCII, so splitting by character agrees with Go's
  splitting by byte.
* A Go `error` is its message (`GoError`); a `(value, error)` result is an
  `Except GoError value`; a `(*BinInfo, error)` result whose pointer may be
  `nil` without an error is an `Except GoError (Option BinInfo)`.
* Everything the program obtains from the operating system, the network or
  the Go standard library beyond plain string handling is a field of `Env`.
-/

namespace GobinInfo

/-! ## Strings -/

/-- Go `string`, as the list of its characters. -/
abbrev GoString := List Char

/-- Go `error`, as its message. -/
abbrev GoError := List Char

/-- Go `len(s)`: the number of bytes of the UTF-8 encoding of `s`. -/
def goLen (s : GoString) : Nat :=
  (s.map Char.utf8Size).sum

/-- Pieces of `s` between the occurrences of the one-character separator,
with the piece being read kept in `cur`. -/
def splitAux (sep : Char) : GoString → GoString → List GoString
  | cur, [] => [cur]
  | cur, c :: cs => if c = sep then cur :: splitAux sep [] cs else splitAux sep (cur ++ [c]) cs

/-- Go `strings.Split(s, sep)` for a separator of one character (the program
only splits on `"/"`): never empty, `n` separators give `n + 1` pieces. -/
def stringsSplit (s : GoString) (sep : Char) : List GoString :=
  splitAux sep [] s

/-- Go `strings.HasPrefix`. -/
def stringsHasPrefix (s pre : GoString) : Bool :=
  pre.isPrefixOf s

/-- Go `strings.HasSuffix`. -/
def stringsHasSuffix (s suf : GoString) : Bool :=
  suf.isSuffixOf s

/-- Go `strings.Contains`. -/
def stringsContains : GoString → GoString → Bool
  | [], sub => sub.isPrefixOf []
  | c :: cs, sub => sub.isPrefixOf (c :: cs) || stringsContains cs sub

/-- Split of `s` around the first occurrence of `sep`, when there is one. -/
def cutFirst (sep : GoString) : GoString → Option (GoString × GoString)
  | [] => if sep.isPrefixOf [] then some ([], []) else none
  | c :: cs =>
    if sep.isPrefixOf (c :: cs) then some ([], (c :: cs).drop sep.length)
    else (cutFirst sep cs).map fun p => (c :: p.1, p.2)

/-- Go `strings.Cut(s, sep)`: `(before, after, found)`; without an occurrence
of `sep` the result is `(s, "", false)`. -/
def stringsCut (s sep : GoString) : GoString × GoString × Bool :=
  match cutFirst sep s with
  | some (before, after) => (before, after, true)
  | none => (s, [], false)

/-- Go `strings.Repeat(s, count)`; `none` is the panic on a negative count. -/
def stringsRepeat (s : GoString) (count : Int) : Option GoString :=
  if count < 0 then none else some (List.replicate count.toNat s).flatten

/-! ## Provider registry -/

/-- The pair of functions registered for a hosting domain (`type Funcs`). -/
structure Funcs where
  /-- Takes module path, returns owner and repo name. -/
  GetOwnerRepoPair : GoString → Except GoError (GoString × GoString)
  /-- Takes Git owner and repo name, returns repo URL. -/
  GetRepoURL : GoString → GoString → GoString

/-- The error of `defaultGetOwnerRepoPair` for a path of fewer than three
segments. -/
def ownerRepoError (modulePath : GoString) : GoError :=
  "couldn't determine owner and repo name in module path '".toList ++ modulePath ++ "'".toList

/-- The `defaultGetOwnerRepoPair` of `main.go`. -/
def defaultGetOwnerRepoPair (modulePath : GoString) : Except GoError (GoString × GoString) :=
  let subs := stringsSplit modulePath '/'
  if subs.length < 3 then
    .error (ownerRepoError modulePath)
  else
    .ok (subs.getD 1 [], subs.getD 2 [])

/-- The map `knownGitProviders` of `main.go`, as its list of entries. -/
def knownGitProviders : List (GoString × Funcs) :=
  [ ("github.com".toList,
      { GetOwnerRepoPair := defaultGetOwnerRepoPair
        GetRepoURL := fun owner repo => "https://github.com/".toList ++ owner ++ "/".toList ++ repo }),
    ("gitlab.com".toList,
      { GetOwnerRepoPair := defaultGetOwnerRepoPair
        GetRepoURL := fun owner repo => "https://gitlab.com/".toList ++ owner ++ "/".toList ++ repo }),
    ("bitbucket.org".toList,
      { GetOwnerRepoPair := defaultGetOwnerRepoPair
        GetRepoURL := fun owner repo => "https://bitbucket.com/".toList ++ owner ++ "/".toList ++ repo }),
    ("sr.ht".toList,
      { GetOwnerRepoPair := defaultGetOwnerRepoPair
        GetRepoURL := fun owner repo => "https://sr.ht/".toList ++ owner ++ "/".toList ++ repo }),
    ("cs.opensource.google".toList,
      { GetOwnerRepoPair := defaultGetOwnerRepoPair
        GetRepoURL := fun owner repo =>
          "https://cs.opensource.google/".toList ++ owner ++ "/".toList ++ repo }),
    ("gitee.com".toList,
      { GetOwnerRepoPair := defaultGetOwnerRepoPair
        GetRepoURL := fun owner repo => "https://gitee.com/".toList ++ owner ++ "/".toList ++ repo }),
    ("codeberg.org".toList,
      { GetOwnerRepoPair := defaultGetOwnerRepoPair
        GetRepoURL := fun owner repo => "https://codeberg.org/".toList ++ owner ++ "/".toList ++ repo }) ]

/-- Go map lookup `knownGitProviders[domain]`. -/
def lookupProvider (domain : GoString) : Option Funcs :=
  knownGitProviders.lookup domain

/-- The `fallbackURL` of `main.go`. -/
def fallbackURL (modulePath : GoString) : GoString :=
  let subs := stringsSplit modulePath '/'
  if subs.length < 3 then
    "❓https://".toList ++ modulePath ++ "❓".toList
  else
    "❓https://".toList ++ subs.getD 0 [] ++ "/".toList ++ subs.getD 1 [] ++ "/".toList
      ++ subs.getD 2 [] ++ "❓".toList

/-! ## The vanity pattern

`vanityRegex` uses literals, one-character classes under `*`, `+` and `?`,
and one capture group.  Go's `regexp` returns the leftmost match and, among
the matches starting there, the one a backtracking search finds first; the
matcher below is that backtracking search. -/

/-- How often a one-character class is repeated. -/
inductive Quant where
  | one
  | opt
  | star
  | plus

/-- An item of a pattern: a one-character class with its repetition, or one
of the two ends of the capture group. -/
inductive RNode where
  | rep (cls : Char → Bool) (q : Quant)
  | groupOpen
  | groupClose

/-- The items of a literal piece of a pattern. -/
def lit (s : String) : List RNode :=
  s.toList.map fun c => RNode.rep (fun x => x == c) Quant.one

/-- The class `.`: any character but the newline. -/
def dotClass (c : Char) : Bool :=
  c != '\n'

/-- The class `\w` of Go: `[0-9A-Za-z_]`. -/
def wordClass (c : Char) : Bool :=
  ('0' ≤ c && c ≤ '9') || ('A' ≤ c && c ≤ 'Z') || ('a' ≤ c && c ≤ 'z') || c == '_'

/-- The pattern `< *meta name="go-import" content=".+ \w+ (https?://.+)" *\\?>`
of `main.go`; its last-but-one item `\\?` is an optional backslash. -/
def vanityRegex : List RNode :=
  lit "<" ++ [RNode.rep (fun x => x == ' ') Quant.star]
    ++ lit "meta name=\"go-import\" content=\""
    ++ [RNode.rep dotClass Quant.plus] ++ lit " "
    ++ [RNode.rep wordClass Quant.plus] ++ lit " "
    ++ [RNode.groupOpen] ++ lit "http" ++ [RNode.rep (fun x => x == 's') Quant.opt] ++ lit "://"
    ++ [RNode.rep dotClass Quant.plus, RNode.groupClose]
    ++ lit "\"" ++ [RNode.rep (fun x => x == ' ') Quant.star]
    ++ [RNode.rep (fun x => x == '\\') Quant.opt] ++ lit ">"

/-- Greedy repetition of a class before the continuation `k`: as many
characters as possible first, one fewer on each failure of `k`. -/
def repStar {R : Type} (cls : Char → Bool) (k : GoString → Option R) : GoString → Option R
  | [] => k []
  | c :: cs =>
    if cls c then
      match repStar cls k cs with
      | some r => some r
      | none => k (c :: cs)
    else k (c :: cs)

/-- Backtracking match of the items at the start of the input.  `g` is the
input as it stood where the group opened, `cap` the text of the group; the
result is the text of the group at the end of the first match found. -/
def matchNodes : List RNode → GoString → GoString → GoString → Option GoString
  | [], _, cap, _ => some cap
  | RNode.rep cls Quant.one :: rest, g, cap, s =>
    match s with
    | [] => none
    | c :: cs => if cls c then matchNodes rest g cap cs else none
  | RNode.rep cls Quant.opt :: rest, g, cap, s =>
    match s with
    | [] => matchNodes rest g cap []
    | c :: cs =>
      if cls c then
        match matchNodes rest g cap cs with
        | some r => some r
        | none => matchNodes rest g cap (c :: cs)
      else matchNodes rest g cap (c :: cs)
  | RNode.rep cls Quant.star :: rest, g, cap, s => repStar cls (matchNodes rest g cap) s
  | RNode.rep cls Quant.plus :: rest, g, cap, s =>
    match s with
    | [] => none
    | c :: cs => if cls c then repStar cls (matchNodes rest g cap) cs else none
  | RNode.groupOpen :: rest, _, cap, s => matchNodes rest s cap s
  | RNode.groupClose :: rest, g, _, s => matchNodes rest g (g.take (g.length - s.length)) s

/-- Go `re.FindStringSubmatch(line)`, reduced to what `main.go` reads of it:
`none` for `nil`, otherwise element 1 of the result, the text of the group of
the leftmost match. -/
def findStringSubmatch (re : List RNode) : GoString → Option GoString
  | [] => matchNodes re [] [] []
  | c :: cs =>
    match matchNodes re [] [] (c :: cs) with
    | some r => some r
    | none => findStringSubmatch re cs

/-! ### Parts of the pattern

The pattern cut at the places where the proofs follow the search: each part
is the pattern from some item on, and `vanityRegex_eq` puts them together. -/

/-- The end of `vanityRegex`, from the end of the group on: `)" *\\?>`. -/
def reTerm : List RNode :=
  [RNode.groupClose] ++ lit "\"" ++ [RNode.rep (fun x => x == ' ') Quant.star]
    ++ [RNode.rep (fun x => x == '\\') Quant.opt] ++ lit ">"

/-- The part ` (https?://.+)" *\\?>` of `vanityRegex`. -/
def reURL : List RNode :=
  lit " " ++ [RNode.groupOpen] ++ lit "http" ++ [RNode.rep (fun x => x == 's') Quant.opt]
    ++ lit "://" ++ [RNode.rep dotClass Quant.plus] ++ reTerm

/-- The part ` \w+ (https?://.+)" *\\?>` of `vanityRegex`. -/
def reWord : List RNode :=
  lit " " ++ [RNode.rep wordClass Quant.plus] ++ reURL

/-- The part of `vanityRegex` from `meta` on. -/
def reMeta : List RNode :=
  lit "meta name=\"go-import\" content=\"" ++ [RNode.rep dotClass Quant.plus] ++ reWord

/-- The directive `<meta name="go-import" content="M V U">` as the
specification writes it, for a module path `m`, a word `v` and a URL `u`. -/
def goImportDirective (m v u : GoString) : GoString :=
  "<meta name=\"go-import\" content=\"".toList ++ m ++ " ".toList ++ v ++ " ".toList ++ u
    ++ "\">".toList

/-! ## Environment and data model -/

/-- Go `fs.FileMode`, a 32-bit set of flags. -/
abbrev FileMode := Nat

/-- Go `fs.ModeSymlink`. -/
def ModeSymlink : FileMode := 1 <<< 27

/-- Go `fs.ModeType`: directory, symlink, named pipe, socket, device,
character device and irregular bits. -/
def ModeType : FileMode :=
  1 <<< 31 ||| 1 <<< 27 ||| 1 <<< 25 ||| 1 <<< 24 ||| 1 <<< 26 ||| 1 <<< 21 ||| 1 <<< 19

/-- Go `FileMode.IsRegular`. -/
def IsRegular (m : FileMode) : Bool :=
  m &&& ModeType == 0

/-- Go `fs.ModeDir`. -/
def ModeDir : FileMode := 1 <<< 31

/-- Go `FileMode.IsDir`. -/
def IsDir (m : FileMode) : Bool :=
  m &&& ModeDir != 0

/-- Go `fs.FileInfo`, of which the program reads `Mode()` only. -/
structure FileInfo where
  Mode : FileMode

/-- Go `fs.DirEntry`: `Name()`, which the walk joins to the path of the
directory, and `Type()` (here `Typ`) and `Info()`, which the program reads. -/
structure DirEntry where
  Name : GoString
  Typ : FileMode
  Info : Except GoError FileInfo

/-- A file of the tree under the root of a walk: its directory entry and, when
it is a directory, what `os.ReadDir` finds in it: the files of the directory
(listed here in any order) and the error of the read, if it failed part way. -/
inductive FsNode where
  | mk (d : DirEntry) (entries : List FsNode) (readErr : Option GoError)

/-- One `debug.BuildSetting`. -/
structure BuildSetting where
  Key : GoString
  Value : GoString

/-- The fields of `buildinfo.BuildInfo` the program reads. -/
structure BuildInfo where
  Path : GoString
  MainPath : GoString
  MainVersion : GoString
  Settings : List BuildSetting

/-- What the program obtains from outside itself. -/
structure Env where
  /-- Value of `runtime.GOOS`. -/
  GOOS : GoString
  /-- Go `strings.ToLower`. -/
  toLower : GoString → GoString
  /-- Go `filepath.Base`. -/
  filepathBase : GoString → GoString
  /-- Go `os.Stat`. -/
  osStat : GoString → Except GoError FileInfo
  /-- Go `buildinfo.ReadFile`. -/
  readFile : GoString → Except GoError BuildInfo
  /-- Go `http.Get` followed by the `bufio.Scanner` over the response body:
  the lines (without line ends) the scanner delivers before it stops. -/
  httpGet : GoString → Except GoError (List GoString)
  /-- Go `url.Parse`, of which only the error is read. -/
  urlParse : GoString → Except GoError Unit
  /-- Go `filepath.Join` of a directory path and a file name. -/
  filepathJoin : GoString → GoString → GoString
  /-- Go `os.Lstat` of the root of a walk: its error, or the root with the tree
  under it. -/
  lstat : GoString → Except GoError FsNode

/-- The record `BinInfo` of `main.go`. -/
structure BinInfo where
  filename : GoString
  packagePath : GoString
  modulePath : GoString
  moduleVersion : GoString
  vcsRevision : GoString
  repoURL : GoString
  deriving DecidableEq

/-! ## Vanity resolution -/

/-- The loop of `resolveVanityURL` over the lines of the response body. -/
def scanLines (urlParse : GoString → Except GoError Unit) : List GoString → GoString
  | [] => []
  | line :: rest =>
    match findStringSubmatch vanityRegex line with
    | none => if stringsContains line "</head>".toList then [] else scanLines urlParse rest
    | some redir =>
      match urlParse redir with
      | Except.error _ => []
      | Except.ok _ => redir

/-- The `resolveVanityURL` of `main.go`. -/
def resolveVanityURL (env : Env) (packagePath _gitProvider : GoString) : GoString :=
  match env.httpGet ("https://".toList ++ packagePath) with
  | Except.error _ => []
  | Except.ok lines => scanLines env.urlParse lines

/-! ## Scanning -/

/-- The `isExe` of `main.go`. -/
def isExe (env : Env) (file : GoString) (info : FileInfo) : Bool :=
  if env.GOOS = "windows".toList then
    stringsHasSuffix (env.toLower file) ".exe".toList
  else
    IsRegular info.Mode && info.Mode &&& 0o111 != 0

/-- The symlink step at the head of `scanFile`: the `FileInfo` the rest of
`scanFile` works with, or the early return `(nil, err)` with its `err`, which
is `nil` for a symlink to something that is no regular file. -/
def statSymlink (env : Env) (file : GoString) (info : FileInfo) : Except (Option GoError) FileInfo :=
  if info.Mode &&& ModeSymlink != 0 then
    match env.osStat file with
    | Except.error err => Except.error (some err)
    | Except.ok i => if IsRegular i.Mode then Except.ok i else Except.error none
  else Except.ok info

/-- The value of the first setting with key `vcs.revision`, or `"?"`. -/
def vcsRevisionOf (settings : List BuildSetting) : GoString :=
  match settings.find? fun st => st.Key == "vcs.revision".toList with
  | some st => st.Value
  | none => "?".toList

/-- The step `if strings.HasPrefix(resolvedURL, "http") { _, resolvedURL, ok =
strings.Cut(resolvedURL, "//") }` of `scanFile`. -/
def trimProtocol (resolvedURL : GoString) : GoString :=
  if stringsHasPrefix resolvedURL "http".toList then
    (stringsCut resolvedURL "//".toList).2.1
  else resolvedURL

/-- The record `scanFile` builds from the build information of `file` before
it derives the URL: the literal `BinInfo{...}` and the loop that looks for the
revision. -/
def initBinInfo (env : Env) (file : GoString) (bi : BuildInfo) : BinInfo :=
  { filename := env.filepathBase file
    packagePath := bi.Path
    modulePath := bi.MainPath
    moduleVersion := bi.MainVersion
    vcsRevision := vcsRevisionOf bi.Settings
    repoURL := "?".toList }

/-- The `scanFile` of `main.go`: `ok none` is the return `(nil, nil)`. -/
def scanFile (env : Env) (file : GoString) (info : FileInfo) : Except GoError (Option BinInfo) :=
  match statSymlink env file info with
  | Except.error (some err) => Except.error err
  | Except.error none => Except.ok none
  | Except.ok info =>
    if !isExe env file info then Except.ok none
    else
      match env.readFile file with
      | Except.error err => Except.error err
      | Except.ok bi =>
        let binInfo := initBinInfo env file bi
        let gitProvider := (stringsSplit binInfo.modulePath '/').headD []
        match lookupProvider gitProvider with
        | none =>
          let resolvedURL := resolveVanityURL env binInfo.packagePath gitProvider
          if resolvedURL = [] then
            Except.ok (some { binInfo with repoURL := fallbackURL binInfo.modulePath })
          else
            let resolvedURL := trimProtocol resolvedURL
            let gitProvider := (stringsSplit resolvedURL '/').headD []
            match lookupProvider gitProvider with
            | none => Except.ok (some { binInfo with repoURL := fallbackURL resolvedURL })
            | some funcs =>
              match funcs.GetOwnerRepoPair resolvedURL with
              | Except.error err => Except.error err
              | Except.ok (owner, repo) =>
                Except.ok (some { binInfo with repoURL := funcs.GetRepoURL owner repo })
        | some funcs =>
          match funcs.GetOwnerRepoPair binInfo.modulePath with
          | Except.error err => Except.error err
          | Except.ok (owner, repo) =>
            Except.ok (some { binInfo with repoURL := funcs.GetRepoURL owner repo })

/-- The function `scanDir` passes to `filepath.WalkDir`, on the entry `d` at
`path`, with `binInfos` the records appended so far: the records after the
call and the error returned.  The function does not read its third argument
`err`; on the `nil` entry, which the walk passes when the root cannot be
examined, `d.Type()` panics, which is the result `none`. -/
def scanDirVisit (env : Env) (binInfos : List BinInfo) (path : GoString) (d : Option DirEntry) :
    Option (List BinInfo × Option GoError) :=
  match d with
  | none => none
  | some d =>
    if IsRegular d.Typ || d.Typ &&& ModeSymlink != 0 then
      match d.Info with
      | Except.error err => some (binInfos, some err)
      | Except.ok info =>
        match scanFile env path info with
        | Except.error err => some (binInfos, some err)
        | Except.ok none => some (binInfos, none)
        | Except.ok (some binInfo) => some (binInfos ++ [binInfo], none)
    else some (binInfos, none)

/-- Go comparison `a < b` of two file names: byte-wise, which on UTF-8 text is
the order of the characters. -/
def nameLt (a b : GoString) : Bool :=
  decide (a < b)

/-- Insertion of an item into a list sorted by name. -/
def insertByName {α : Type} (x : GoString × α) : List (GoString × α) → List (GoString × α)
  | [] => [x]
  | y :: ys => if nameLt x.1 y.1 then x :: y :: ys else y :: insertByName x ys

/-- Go `os.ReadDir` returns the entries of a directory sorted by file name. -/
def sortByName {α : Type} : List (GoString × α) → List (GoString × α)
  | [] => []
  | x :: xs => insertByName x (sortByName xs)

mutual

/-- The calls that `filepath.WalkDir` makes to its function on the tree whose
root is at `path`, as long as the function returns no error: the root, once
more the root when `os.ReadDir` reported an error for it, then the trees of
its entries in the order of their file names, each at the path joined from
`path` and its name.  Only a directory is read. -/
def visits (env : Env) : FsNode → GoString → List (GoString × DirEntry)
  | FsNode.mk d entries readErr, path =>
    (path, d) ::
      (if IsDir d.Typ then
        (match readErr with
          | none => []
          | some _ => [(path, d)])
          ++ ((sortByName (visitsEntries env entries)).map fun e =>
                e.2 (env.filepathJoin path e.1)).flatten
      else [])

/-- The entries of a directory, each with its name and the calls of the walk
on its tree, given the path of the entry. -/
def visitsEntries (env : Env) :
    List FsNode → List (GoString × (GoString → List (GoString × DirEntry)))
  | [] => []
  | FsNode.mk d entries readErr :: rest =>
    (d.Name, visits env (FsNode.mk d entries readErr)) :: visitsEntries env rest

end

/-- Go `filepath.WalkDir` with the function of `scanDir`, from the calls it
has yet to make: the walk stops at the first call that returns an error, and
returns that error (the function of `scanDir` never returns `fs.SkipDir` or
`fs.SkipAll`, the two errors the walk keeps to itself); `none` is a panic. -/
def walkDir (env : Env) :
    List BinInfo → List (GoString × DirEntry) → Option (List BinInfo × Option GoError)
  | binInfos, [] => some (binInfos, none)
  | binInfos, (path, d) :: rest =>
    match scanDirVisit env binInfos path (some d) with
    | none => none
    | some (binInfos, none) => walkDir env binInfos rest
    | some (binInfos, some err) => some (binInfos, some err)

/-- The `scanDir` of `main.go`: the records and the error it returns, `none`
when it panics.  When `os.Lstat` fails on the root, the walk calls the
function once, with a `nil` entry and that error. -/
def scanDir (env : Env) (dir : GoString) : Option (List BinInfo × Option GoError) :=
  match env.lstat dir with
  | Except.error _ => scanDirVisit env [] dir none
  | Except.ok root => walkDir env [] (visits env root dir)

/-! ## Printing -/

/-- The first loop of `printResult`: `maxFileNameLen` and `maxVersionLen`,
from the values they have so far. -/
def maxLens : Int × Int → List BinInfo → Int × Int
  | m, [] => m
  | (maxFileNameLen, maxVersionLen), binInfo :: rest =>
    maxLens
      (if (goLen binInfo.filename : Int) > maxFileNameLen then (goLen binInfo.filename : Int)
        else maxFileNameLen,
       if (goLen binInfo.moduleVersion : Int) > maxVersionLen then (goLen binInfo.moduleVersion : Int)
        else maxVersionLen)
      rest

/-- One turn of the second loop of `printResult`: the line printed, `none`
when `strings.Repeat` panics. -/
def printRow (maxFileNameLen maxVersionLen : Int) (binInfo : BinInfo) : Option GoString :=
  match stringsRepeat " ".toList (maxFileNameLen - goLen binInfo.filename) with
  | none => none
  | some padF =>
    match stringsRepeat " ".toList (maxVersionLen - goLen binInfo.moduleVersion) with
    | none => none
    | some padV =>
      let filenameWithPadding := binInfo.filename ++ padF
      let versionWithPadding := binInfo.moduleVersion ++ padV
      some (filenameWithPadding ++ " ".toList ++ versionWithPadding ++ " ".toList
        ++ binInfo.repoURL ++ "\n".toList)

/-- The second loop of `printResult`. -/
def printRows (maxFileNameLen maxVersionLen : Int) : List BinInfo → Option (List GoString)
  | [] => some []
  | binInfo :: rest =>
    match printRow maxFileNameLen maxVersionLen binInfo with
    | none => none
    | some row =>
      match printRows maxFileNameLen maxVersionLen rest with
      | none => none
      | some rows => some (row :: rows)

/-- The `printResult` of `main.go`: the lines written to standard output,
`none` when the function panics. -/
def printResult (binInfos : List BinInfo) : Option (List GoString) :=
  let m := maxLens (0, 0) binInfos
  printRows m.1 m.2 binInfos

/-- What a run of the program ends in. -/
inductive Outcome where
  | fatal (logLine : GoString)
  | printed (rows : List GoString)
  | panicked
  deriving DecidableEq

/-- The part of `main` that follows `getPath`: scan, then stop with
`log.Fatalln` on an error, otherwise print. -/
def mainFrom (env : Env) (path : GoString) : Outcome :=
  match scanDir env path with
  | none => Outcome.panicked
  | some (_, some err) => Outcome.fatal ("Error scanning dir: ".toList ++ err)
  | some (binInfos, none) =>
    match printResult binInfos with
    | none => Outcome.panicked
    | some rows => Outcome.printed rows

/-! ## Concrete environments -/

/-- An environment of a Linux machine on which every file has the build
information `bi` and every HTTP GET has the outcome `page`. -/
def envWith (bi : BuildInfo) (page : Except GoError (List GoString)) : Env :=
  { GOOS := "linux".toList
    toLower := fun s => s.map Char.toLower
    filepathBase := fun p => (stringsSplit p '/').getLastD []
    osStat := fun _ => Except.error "stat: no such file or directory".toList
    readFile := fun _ => Except.ok bi
    httpGet := fun _ => page
    urlParse := fun _ => Except.ok ()
    filepathJoin := fun dir name => dir ++ "/".toList ++ name
    lstat := fun _ => Except.error "lstat: no such file or directory".toList }

/-- Build information with the given package path, module path and version. -/
def buildInfoOf (packagePath modulePath version : String) : BuildInfo :=
  { Path := packagePath.toList
    MainPath := modulePath.toList
    MainVersion := version.toList
    Settings := [] }

/-- An environment of a Linux machine on which the directory `dir` holds the
regular executable files named in `files`, each with its build information,
and nothing else exists; every HTTP GET fails. -/
def envOfDir (dir : GoString) (files : List (GoString × BuildInfo)) : Env :=
  { GOOS := "linux".toList
    toLower := fun s => s.map Char.toLower
    filepathBase := fun p => (stringsSplit p '/').getLastD []
    osStat := fun _ => Except.error "stat: no such file or directory".toList
    readFile := fun p =>
      match (files.map fun e => (dir ++ "/".toList ++ e.1, e.2)).lookup p with
      | some bi => Except.ok bi
      | none => Except.error "could not read Go build info".toList
    httpGet := fun _ => Except.error "connection refused".toList
    urlParse := fun _ => Except.ok ()
    filepathJoin := fun d name => d ++ "/".toList ++ name
    lstat := fun p =>
      if p = dir then
        Except.ok (FsNode.mk
          { Name := (stringsSplit dir '/').getLastD [], Typ := ModeDir,
            Info := Except.ok { Mode := ModeDir ||| 0o755 } }
          (files.map fun e =>
            FsNode.mk { Name := e.1, Typ := 0, Info := Except.ok { Mode := 0o755 } } [] none)
          none)
      else Except.error "lstat: no such file or directory".toList }

/-! ## Splitting -/

theorem splitAux_ne_nil (sep : Char) (cur s : GoString) : splitAux sep cur s ≠ [] := by
  induction s generalizing cur with
  | nil => simp [splitAux]
  | cons c cs ih =>
    unfold splitAux
    split
    · simp
    · exact ih _

theorem splitAux_no_sep (sep : Char) (cur s : GoString) (h : sep ∉ s) :
    splitAux sep cur s = [cur ++ s] := by
  induction s generalizing cur with
  | nil => simp [splitAux]
  | cons c cs ih =>
    simp only [List.mem_cons, not_or] at h
    have hc : ¬ c = sep := fun e => h.1 e.symm
    simp [splitAux, hc, ih _ h.2]

theorem splitAux_sep (sep : Char) (cur a b : GoString) (h : sep ∉ a) :
    splitAux sep cur (a ++ sep :: b) = (cur ++ a) :: splitAux sep [] b := by
  induction a generalizing cur with
  | nil => simp [splitAux]
  | cons c cs ih =>
    simp only [List.mem_cons, not_or] at h
    have hc : ¬ c = sep := fun e => h.1 e.symm
    simp [splitAux, hc, ih _ h.2]

/-- A path made of separator-free segments joined by the separator splits
back into these segments. -/
theorem stringsSplit_intercalate (sep : Char) (segs : List GoString) (hne : segs ≠ [])
    (hfree : ∀ seg ∈ segs, sep ∉ seg) :
    stringsSplit (List.intercalate [sep] segs) sep = segs := by
  induction segs with
  | nil => exact absurd rfl hne
  | cons a rest ih =>
    cases rest with
    | nil =>
      simpa [stringsSplit, List.intercalate] using
        splitAux_no_sep sep [] a (hfree a (List.mem_cons_self _ _))
    | cons b more =>
      have hrest : stringsSplit (List.intercalate [sep] (b :: more)) sep = b :: more :=
        ih (by simp) (fun seg hs => hfree seg (List.mem_cons_of_mem _ hs))
      have ha : sep ∉ a := hfree a (List.mem_cons_self _ _)
      have hjoin : List.intercalate [sep] (a :: b :: more)
          = a ++ sep :: List.intercalate [sep] (b :: more) := by
        simp [List.intercalate, List.intersperse]
      rw [hjoin]
      unfold stringsSplit at hrest ⊢
      rw [splitAux_sep sep [] a _ ha, hrest]
      simp

theorem stringsSplit_ne_nil (s : GoString) (sep : Char) : stringsSplit s sep ≠ [] :=
  splitAux_ne_nil sep [] s

theorem intercalate_splitAux (sep : Char) (cur s : GoString) :
    List.intercalate [sep] (splitAux sep cur s) = cur ++ s := by
  induction s generalizing cur with
  | nil => simp [splitAux, List.intercalate]
  | cons c cs ih =>
    unfold splitAux
    split
    · rename_i hc
      obtain ⟨a, rest, hs⟩ := List.exists_cons_of_ne_nil (splitAux_ne_nil sep [] cs)
      have h := ih []
      rw [hs] at h ⊢
      simp only [List.intercalate, List.intersperse, List.flatten_cons, List.nil_append] at h ⊢
      rw [h, hc]
      simp
    · rw [ih]; simp

/-- Joining the segments of a path by the separator gives the path back. -/
theorem intercalate_stringsSplit (s : GoString) (sep : Char) :
    List.intercalate [sep] (stringsSplit s sep) = s := by
  simpa [stringsSplit] using intercalate_splitAux sep [] s

theorem splitAux_free (sep : Char) (cur s : GoString) (hcur : sep ∉ cur) :
    ∀ seg ∈ splitAux sep cur s, sep ∉ seg := by
  induction s generalizing cur with
  | nil => simpa [splitAux] using hcur
  | cons c cs ih =>
    unfold splitAux
    split
    · intro seg hseg
      rcases List.mem_cons.mp hseg with rfl | h
      · exact hcur
      · exact ih [] (by simp) seg h
    · rename_i hc
      exact ih (cur ++ [c]) (by
        simp only [List.mem_append, List.mem_singleton, not_or]
        exact ⟨hcur, fun e => hc e.symm⟩)

/-- No segment of a path contains the separator. -/
theorem stringsSplit_free (s : GoString) (sep : Char) :
    ∀ seg ∈ stringsSplit s sep, sep ∉ seg :=
  splitAux_free sep [] s (by simp)

/-! ## The registry -/

theorem lookupProvider_of_mem (d : GoString) (f : Funcs) (h : (d, f) ∈ knownGitProviders) :
    lookupProvider d = some f := by
  simp only [knownGitProviders, List.mem_cons, List.mem_singleton, Prod.mk.injEq,
    List.not_mem_nil, or_false] at h
  rcases h with h | h | h | h | h | h | h <;> obtain ⟨rfl, rfl⟩ := h <;> rfl

theorem lookupProvider_of_not_mem (d : GoString) (h : d ∉ knownGitProviders.map Prod.fst) :
    lookupProvider d = none := by
  unfold lookupProvider
  rw [List.lookup_eq_none_iff]
  intro p hp
  have hne : d ≠ p.1 := fun e => h (e ▸ List.mem_map_of_mem Prod.fst hp)
  simpa using hne

theorem getOwnerRepoPair_of_mem (d : GoString) (f : Funcs) (h : (d, f) ∈ knownGitProviders) :
    f.GetOwnerRepoPair = defaultGetOwnerRepoPair := by
  simp only [knownGitProviders, List.mem_cons, List.mem_singleton, Prod.mk.injEq,
    List.not_mem_nil, or_false] at h
  rcases h with h | h | h | h | h | h | h <;> obtain ⟨rfl, rfl⟩ := h <;> rfl

theorem getRepoURL_of_mem (d : GoString) (f : Funcs) (h : (d, f) ∈ knownGitProviders)
    (hd : d ≠ "bitbucket.org".toList) (owner repo : GoString) :
    f.GetRepoURL owner repo = "https://".toList ++ d ++ "/".toList ++ owner ++ "/".toList ++ repo := by
  simp only [knownGitProviders, List.mem_cons, List.mem_singleton, Prod.mk.injEq,
    List.not_mem_nil, or_false] at h
  rcases h with h | h | h | h | h | h | h <;> obtain ⟨rfl, rfl⟩ := h <;>
    first
    | exact absurd rfl hd
    | rfl

theorem getRepoURL_head (d : GoString) (f : Funcs) (h : (d, f) ∈ knownGitProviders)
    (owner repo : GoString) : (f.GetRepoURL owner repo).head? = some 'h' := by
  simp only [knownGitProviders, List.mem_cons, List.mem_singleton, Prod.mk.injEq,
    List.not_mem_nil, or_false] at h
  rcases h with h | h | h | h | h | h | h <;> obtain ⟨rfl, rfl⟩ := h <;> rfl

theorem defaultGetOwnerRepoPair_short (p : GoString) (h : (stringsSplit p '/').length < 3) :
    defaultGetOwnerRepoPair p = Except.error (ownerRepoError p) := by
  simp [defaultGetOwnerRepoPair, h]

theorem defaultGetOwnerRepoPair_long (p : GoString) (h : ¬ (stringsSplit p '/').length < 3) :
    defaultGetOwnerRepoPair p
      = Except.ok ((stringsSplit p '/').getD 1 [], (stringsSplit p '/').getD 2 []) := by
  simp [defaultGetOwnerRepoPair, h]

/-! ## `scanFile` on a known provider -/

theorem scanFile_known (env : Env) (file : GoString) (info info' : FileInfo) (bi : BuildInfo)
    (d : GoString) (f : Funcs)
    (hstat : statSymlink env file info = Except.ok info') (hexe : isExe env file info' = true)
    (hread : env.readFile file = Except.ok bi)
    (hdom : (stringsSplit bi.MainPath '/').headD [] = d) (hd : (d, f) ∈ knownGitProviders) :
    scanFile env file info =
      if (stringsSplit bi.MainPath '/').length < 3 then Except.error (ownerRepoError bi.MainPath)
      else Except.ok (some { initBinInfo env file bi with
        repoURL := f.GetRepoURL ((stringsSplit bi.MainPath '/').getD 1 [])
          ((stringsSplit bi.MainPath '/').getD 2 []) }) := by
  have hl : lookupProvider ((stringsSplit (initBinInfo env file bi).modulePath '/').headD []) = some f := by
    show lookupProvider ((stringsSplit bi.MainPath '/').headD []) = some f
    rw [hdom]; exact lookupProvider_of_mem d f hd
  unfold scanFile
  simp only [hstat, hexe, hread, hl, getOwnerRepoPair_of_mem d f hd]
  by_cases hlen : (stringsSplit bi.MainPath '/').length < 3
  · have : (initBinInfo env file bi).modulePath = bi.MainPath := rfl
    simp [this, defaultGetOwnerRepoPair_short _ hlen, hlen]
  · have : (initBinInfo env file bi).modulePath = bi.MainPath := rfl
    simp [this, defaultGetOwnerRepoPair_long _ hlen, hlen]

/-! ## `scanFile` on an unknown provider -/

theorem scanFile_unknown (env : Env) (file : GoString) (info info' : FileInfo) (bi : BuildInfo)
    (hstat : statSymlink env file info = Except.ok info') (hexe : isExe env file info' = true)
    (hread : env.readFile file = Except.ok bi)
    (hdom : lookupProvider ((stringsSplit bi.MainPath '/').headD []) = none) :
    scanFile env file info =
      if resolveVanityURL env bi.Path ((stringsSplit bi.MainPath '/').headD []) = [] then
        Except.ok (some { initBinInfo env file bi with repoURL := fallbackURL bi.MainPath })
      else
        match lookupProvider ((stringsSplit (trimProtocol
            (resolveVanityURL env bi.Path ((stringsSplit bi.MainPath '/').headD []))) '/').headD []) with
        | none => Except.ok (some { initBinInfo env file bi with
            repoURL := fallbackURL (trimProtocol
              (resolveVanityURL env bi.Path ((stringsSplit bi.MainPath '/').headD []))) })
        | some funcs =>
          match funcs.GetOwnerRepoPair (trimProtocol
            (resolveVanityURL env bi.Path ((stringsSplit bi.MainPath '/').headD []))) with
          | Except.error err => Except.error err
          | Except.ok (owner, repo) =>
            Except.ok (some { initBinInfo env file bi with repoURL := funcs.GetRepoURL owner repo }) := by
  have hl : lookupProvider ((stringsSplit (initBinInfo env file bi).modulePath '/').headD []) = none := hdom
  unfold scanFile
  simp only [hstat, hexe, hread, hl]
  rfl

/-- The protocol of a redirect target is trimmed by the cut at `//`. -/
theorem trimProtocol_protocol (proto t : GoString)
    (hp : proto = "http://".toList ∨ proto = "https://".toList) :
    trimProtocol (proto ++ t) = t := by
  rcases hp with rfl | rfl <;>
    simp [trimProtocol, stringsHasPrefix, stringsCut, cutFirst, List.isPrefixOf]

theorem fallbackURL_eq (p : GoString) :
    fallbackURL p = "❓https://".toList
      ++ (if (stringsSplit p '/').length < 3 then p
          else List.intercalate "/".toList ((stringsSplit p '/').take 3))
      ++ "❓".toList := by
  unfold fallbackURL
  by_cases h : (stringsSplit p '/').length < 3
  · simp [h]
  · simp only [h, if_false]
    rcases hs : stringsSplit p '/' with _ | ⟨a, _ | ⟨b, _ | ⟨c, more⟩⟩⟩
    · simp [hs] at h
    · simp [hs] at h
    · simp [hs] at h
    · simp [List.intercalate, List.intersperse]

/-! ## Claims on `scanFile` -/

/-- C1 (the code at the failing input): for the module path
`bitbucket.org/owner/repo`, whose first segment is the registered domain
`bitbucket.org`, `scanFile` succeeds with the URL
`https://bitbucket.com/owner/repo`, which is not `"https://" + d + "/" +
segment1 + "/" + segment2` for `d = bitbucket.org`. -/
theorem scanFile_bitbucket_host :
    scanFile (envWith (buildInfoOf "bitbucket.org/owner/repo/cmd/tool" "bitbucket.org/owner/repo" "v1.0.0")
        (Except.error "connection refused".toList)) "/go/bin/tool".toList { Mode := 0o755 }
      = Except.ok (some
          { filename := "tool".toList
            packagePath := "bitbucket.org/owner/repo/cmd/tool".toList
            modulePath := "bitbucket.org/owner/repo".toList
            moduleVersion := "v1.0.0".toList
            vcsRevision := "?".toList
            repoURL := "https://bitbucket.com/owner/repo".toList })
    ∧ "bitbucket.org".toList ∈ knownGitProviders.map Prod.fst
    ∧ stringsSplit "bitbucket.org/owner/repo".toList '/'
        = ["bitbucket.org".toList, "owner".toList, "repo".toList]
    ∧ "https://bitbucket.com/owner/repo".toList
        ≠ "https://".toList ++ "bitbucket.org".toList ++ "/".toList ++ "owner".toList
            ++ "/".toList ++ "repo".toList := by
  refine ⟨by rfl, by decide, by decide, by decide⟩

/-- For every registered domain `d` but `bitbucket.org` and every module path
whose segments are `d`, `owner`, `repo` and possibly more, `scanFile`
succeeds with the URL `https://d/owner/repo`. -/
theorem scanFile_known_provider_url (env : Env) (file : GoString) (info info' : FileInfo)
    (bi : BuildInfo) (d owner repo : GoString) (more : List GoString)
    (hstat : statSymlink env file info = Except.ok info') (hexe : isExe env file info' = true)
    (hread : env.readFile file = Except.ok bi)
    (hd : d ∈ knownGitProviders.map Prod.fst) (hbb : d ≠ "bitbucket.org".toList)
    (hsegs : stringsSplit bi.MainPath '/' = d :: owner :: repo :: more) :
    scanFile env file info = Except.ok (some { initBinInfo env file bi with
      repoURL := "https://".toList ++ d ++ "/".toList ++ owner ++ "/".toList ++ repo }) := by
  obtain ⟨⟨d', f⟩, hmem, rfl⟩ := List.mem_map.mp hd
  rw [scanFile_known env file info info' bi d' f hstat hexe hread (by simp [hsegs]) hmem]
  simp [hsegs, getRepoURL_of_mem d' f hmem hbb]

/-- C2: for a module path whose first segment is a registered provider domain
and which has fewer than three segments, `scanFile` returns the extraction
error for that module path and no `BinInfo`, whatever the package path. -/
theorem scanFile_known_provider_short_path (env : Env) (file : GoString) (info info' : FileInfo)
    (bi : BuildInfo)
    (hstat : statSymlink env file info = Except.ok info') (hexe : isExe env file info' = true)
    (hread : env.readFile file = Except.ok bi)
    (hd : (stringsSplit bi.MainPath '/').headD [] ∈ knownGitProviders.map Prod.fst)
    (hlen : (stringsSplit bi.MainPath '/').length < 3) :
    scanFile env file info = Except.error (ownerRepoError bi.MainPath) := by
  obtain ⟨⟨d', f⟩, hmem, hdd⟩ := List.mem_map.mp hd
  rw [scanFile_known env file info info' bi d' f hstat hexe hread hdd.symm hmem]
  simp [hlen]

/-- C2 at the module path `github.com/tool`, of two segments. -/
theorem scanFile_known_provider_short_path_witness :
    scanFile (envWith (buildInfoOf "github.com/tool" "github.com/tool" "v1.0.0")
        (Except.error "connection refused".toList)) "/go/bin/tool".toList { Mode := 0o755 }
      = Except.error (ownerRepoError "github.com/tool".toList) :=
  scanFile_known_provider_short_path
    (envWith (buildInfoOf "github.com/tool" "github.com/tool" "v1.0.0")
      (Except.error "connection refused".toList))
    "/go/bin/tool".toList { Mode := 0o755 } { Mode := 0o755 }
    (buildInfoOf "github.com/tool" "github.com/tool" "v1.0.0")
    (by rfl) (by rfl) (by rfl) (by decide) (by decide)

/-- C4: for a module path whose first segment is not a registered provider
domain, when the vanity resolver returns the empty string, `scanFile`
succeeds and the repo URL is `fallbackURL modulePath`: the marker, `https://`,
the first three segments of the module path joined by `/` (the whole module
path when it has fewer than three segments), the marker. -/
theorem scanFile_unknown_no_redirect (env : Env) (file : GoString) (info info' : FileInfo)
    (bi : BuildInfo)
    (hstat : statSymlink env file info = Except.ok info') (hexe : isExe env file info' = true)
    (hread : env.readFile file = Except.ok bi)
    (hd : (stringsSplit bi.MainPath '/').headD [] ∉ knownGitProviders.map Prod.fst)
    (hres : resolveVanityURL env bi.Path ((stringsSplit bi.MainPath '/').headD []) = []) :
    scanFile env file info
        = Except.ok (some { initBinInfo env file bi with repoURL := fallbackURL bi.MainPath })
      ∧ fallbackURL bi.MainPath = "❓https://".toList
          ++ (if (stringsSplit bi.MainPath '/').length < 3 then bi.MainPath
              else List.intercalate "/".toList ((stringsSplit bi.MainPath '/').take 3))
          ++ "❓".toList := by
  refine ⟨?_, fallbackURL_eq _⟩
  rw [scanFile_unknown env file info info' bi hstat hexe hread (lookupProvider_of_not_mem _ hd),
    if_pos hres]

/-- C4 at the module path `example.org/a/b/c` when the HTTP GET fails. -/
theorem scanFile_unknown_no_redirect_witness :
    scanFile (envWith (buildInfoOf "example.org/a/b/c/cmd/tool" "example.org/a/b/c" "v1.0.0")
        (Except.error "connection refused".toList)) "/go/bin/tool".toList { Mode := 0o755 }
      = Except.ok (some
          { filename := "tool".toList
            packagePath := "example.org/a/b/c/cmd/tool".toList
            modulePath := "example.org/a/b/c".toList
            moduleVersion := "v1.0.0".toList
            vcsRevision := "?".toList
            repoURL := "❓https://example.org/a/b❓".toList })
      ∧ fallbackURL "example.org/a/b/c".toList = "❓https://example.org/a/b❓".toList :=
  scanFile_unknown_no_redirect
    (envWith (buildInfoOf "example.org/a/b/c/cmd/tool" "example.org/a/b/c" "v1.0.0")
      (Except.error "connection refused".toList))
    "/go/bin/tool".toList { Mode := 0o755 } { Mode := 0o755 }
    (buildInfoOf "example.org/a/b/c/cmd/tool" "example.org/a/b/c" "v1.0.0")
    (by rfl) (by rfl) (by rfl) (by decide) (by rfl)

/-- C5: for every path `p`, `fallbackURL p` is the marker, a body, the marker,
and it differs from the URL any registered provider builds from any owner and
repo. -/
theorem fallbackURL_marked (p : GoString) :
    (∃ body, fallbackURL p = "❓".toList ++ body ++ "❓".toList)
      ∧ ∀ d f, (d, f) ∈ knownGitProviders → ∀ owner repo : GoString,
          fallbackURL p ≠ f.GetRepoURL owner repo := by
  constructor
  · rw [fallbackURL_eq]
    exact ⟨"https://".toList ++ (if (stringsSplit p '/').length < 3 then p
      else List.intercalate "/".toList ((stringsSplit p '/').take 3)), by simp⟩
  · intro d f hmem owner repo heq
    have h1 : (fallbackURL p).head? = some '❓' := by
      rw [fallbackURL_eq]
      rfl
    rw [heq, getRepoURL_head d f hmem owner repo] at h1
    exact absurd h1 (by decide)

/-- C6: for a module path under an unregistered domain, when the vanity
resolver returns `http://T` or `https://T` and the first segment of `T` is the
domain of a registered provider, `scanFile` builds the repo URL with that
provider from segments 1 and 2 of `T`, and returns the extraction error for `T`
when `T` has fewer than three segments. -/
theorem scanFile_redirect_known (env : Env) (file : GoString) (info info' : FileInfo)
    (bi : BuildInfo) (proto t d : GoString) (f : Funcs)
    (hstat : statSymlink env file info = Except.ok info') (hexe : isExe env file info' = true)
    (hread : env.readFile file = Except.ok bi)
    (hd : (stringsSplit bi.MainPath '/').headD [] ∉ knownGitProviders.map Prod.fst)
    (hproto : proto = "http://".toList ∨ proto = "https://".toList)
    (hres : resolveVanityURL env bi.Path ((stringsSplit bi.MainPath '/').headD []) = proto ++ t)
    (ht : (stringsSplit t '/').headD [] = d) (hf : (d, f) ∈ knownGitProviders) :
    scanFile env file info =
      if (stringsSplit t '/').length < 3 then Except.error (ownerRepoError t)
      else Except.ok (some { initBinInfo env file bi with
        repoURL := f.GetRepoURL ((stringsSplit t '/').getD 1 []) ((stringsSplit t '/').getD 2 []) }) := by
  have hne : proto ++ t ≠ [] := by rcases hproto with rfl | rfl <;> simp
  rw [scanFile_unknown env file info info' bi hstat hexe hread (lookupProvider_of_not_mem _ hd)]
  simp only [hres, hne, if_false, trimProtocol_protocol proto t hproto, ht,
    lookupProvider_of_mem d f hf, getOwnerRepoPair_of_mem d f hf]
  by_cases hlen : (stringsSplit t '/').length < 3
  · simp [defaultGetOwnerRepoPair_short _ hlen, hlen]
  · simp [defaultGetOwnerRepoPair_long _ hlen, hlen]

/-- C6 at the module path `fyne.io/fyne/v2`, whose vanity page redirects to
`https://github.com/fyne-io/fyne`. -/
theorem scanFile_redirect_known_witness :
    scanFile (envWith (buildInfoOf "fyne.io/fyne/v2/cmd/fyne" "fyne.io/fyne/v2" "v2.4.0")
        (Except.ok ["<html>".toList, "<head>".toList,
          "<meta name=\"go-import\" content=\"fyne.io/fyne git https://github.com/fyne-io/fyne\">".toList,
          "</head>".toList])) "/go/bin/fyne".toList { Mode := 0o755 }
      = Except.ok (some
          { filename := "fyne".toList
            packagePath := "fyne.io/fyne/v2/cmd/fyne".toList
            modulePath := "fyne.io/fyne/v2".toList
            moduleVersion := "v2.4.0".toList
            vcsRevision := "?".toList
            repoURL := "https://github.com/fyne-io/fyne".toList }) :=
  scanFile_redirect_known
    (envWith (buildInfoOf "fyne.io/fyne/v2/cmd/fyne" "fyne.io/fyne/v2" "v2.4.0")
      (Except.ok ["<html>".toList, "<head>".toList,
        "<meta name=\"go-import\" content=\"fyne.io/fyne git https://github.com/fyne-io/fyne\">".toList,
        "</head>".toList]))
    "/go/bin/fyne".toList { Mode := 0o755 } { Mode := 0o755 }
    (buildInfoOf "fyne.io/fyne/v2/cmd/fyne" "fyne.io/fyne/v2" "v2.4.0")
    "https://".toList "github.com/fyne-io/fyne".toList "github.com".toList
    { GetOwnerRepoPair := defaultGetOwnerRepoPair
      GetRepoURL := fun owner repo => "https://github.com/".toList ++ owner ++ "/".toList ++ repo }
    (by rfl) (by rfl) (by rfl) (by decide) (Or.inr rfl) (by rfl) (by decide)
    (List.mem_cons_self _ _)

/-- C7: for a module path under an unregistered domain, when the vanity
resolver returns `http://T` or `https://T` and the first segment of `T` is not
a registered provider domain either, `scanFile` succeeds and the repo URL is
`fallbackURL T`: the marker, `https://`, the first three segments of `T`
joined by `/` (all of `T` when it has fewer than three), the marker. -/
theorem scanFile_redirect_unknown (env : Env) (file : GoString) (info info' : FileInfo)
    (bi : BuildInfo) (proto t : GoString)
    (hstat : statSymlink env file info = Except.ok info') (hexe : isExe env file info' = true)
    (hread : env.readFile file = Except.ok bi)
    (hd : (stringsSplit bi.MainPath '/').headD [] ∉ knownGitProviders.map Prod.fst)
    (hproto : proto = "http://".toList ∨ proto = "https://".toList)
    (hres : resolveVanityURL env bi.Path ((stringsSplit bi.MainPath '/').headD []) = proto ++ t)
    (ht : (stringsSplit t '/').headD [] ∉ knownGitProviders.map Prod.fst) :
    scanFile env file info
        = Except.ok (some { initBinInfo env file bi with repoURL := fallbackURL t })
      ∧ fallbackURL t = "❓https://".toList
          ++ (if (stringsSplit t '/').length < 3 then t
              else List.intercalate "/".toList ((stringsSplit t '/').take 3))
          ++ "❓".toList := by
  refine ⟨?_, fallbackURL_eq _⟩
  have hne : proto ++ t ≠ [] := by rcases hproto with rfl | rfl <;> simp
  rw [scanFile_unknown env file info info' bi hstat hexe hread (lookupProvider_of_not_mem _ hd)]
  simp only [hres, hne, if_false, trimProtocol_protocol proto t hproto,
    lookupProvider_of_not_mem _ ht]

/-- C7 at the module path `example.org/tool`, whose vanity page redirects to
`https://git.example.net/team/tool/src`. -/
theorem scanFile_redirect_unknown_witness :
    scanFile (envWith (buildInfoOf "example.org/tool/cmd/tool" "example.org/tool" "v0.1.0")
        (Except.ok ["<head>".toList,
          "<meta name=\"go-import\" content=\"example.org/tool git https://git.example.net/team/tool/src\">".toList]))
        "/go/bin/tool".toList { Mode := 0o755 }
      = Except.ok (some
          { filename := "tool".toList
            packagePath := "example.org/tool/cmd/tool".toList
            modulePath := "example.org/tool".toList
            moduleVersion := "v0.1.0".toList
            vcsRevision := "?".toList
            repoURL := "❓https://git.example.net/team/tool❓".toList })
      ∧ fallbackURL "git.example.net/team/tool/src".toList
          = "❓https://git.example.net/team/tool❓".toList :=
  scanFile_redirect_unknown
    (envWith (buildInfoOf "example.org/tool/cmd/tool" "example.org/tool" "v0.1.0")
      (Except.ok ["<head>".toList,
        "<meta name=\"go-import\" content=\"example.org/tool git https://git.example.net/team/tool/src\">".toList]))
    "/go/bin/tool".toList { Mode := 0o755 } { Mode := 0o755 }
    (buildInfoOf "example.org/tool/cmd/tool" "example.org/tool" "v0.1.0")
    "https://".toList "git.example.net/team/tool/src".toList
    (by rfl) (by rfl) (by rfl) (by decide) (Or.inr rfl) (by rfl) (by decide)

/-! ## The line scan -/

theorem scanLines_head_first (urlParse : GoString → Except GoError Unit)
    (pre : List GoString) (h : GoString) (post : List GoString)
    (hhead : stringsContains h "</head>".toList = true)
    (hnone : ∀ l ∈ pre ++ [h], findStringSubmatch vanityRegex l = none) :
    scanLines urlParse (pre ++ h :: post) = [] := by
  induction pre with
  | nil =>
    have h0 : findStringSubmatch vanityRegex h = none := hnone h (by simp)
    simp only [List.nil_append, scanLines, h0, hhead, if_true]
  | cons l ls ih =>
    have h0 : findStringSubmatch vanityRegex l = none := hnone l (by simp)
    have ih' := ih (fun x hx => hnone x (by simp at hx ⊢; tauto))
    simp only [List.cons_append, scanLines, h0]
    split
    · rfl
    · exact ih'

/-- C8: when the response body has a line containing `</head>` and neither
that line nor a line before it matches the go-import pattern, the line scan of
`resolveVanityURL` returns the empty string, whatever the later lines are. -/
theorem resolveVanityURL_head_before_match (env : Env) (packagePath gitProvider : GoString)
    (pre : List GoString) (h : GoString) (post : List GoString)
    (hget : env.httpGet ("https://".toList ++ packagePath) = Except.ok (pre ++ h :: post))
    (hhead : stringsContains h "</head>".toList = true)
    (hnone : ∀ l ∈ pre ++ [h], findStringSubmatch vanityRegex l = none) :
    resolveVanityURL env packagePath gitProvider = [] := by
  unfold resolveVanityURL
  rw [hget]
  exact scanLines_head_first env.urlParse pre h post hhead hnone

/-- C8 on a page whose second line closes the head and whose third line is a
directive. -/
theorem resolveVanityURL_head_before_match_witness :
    resolveVanityURL
      (envWith (buildInfoOf "fyne.io/fyne/v2/cmd/fyne" "fyne.io/fyne/v2" "v2.4.0")
        (Except.ok ["<html>".toList, "<head><title>fyne</title></head>".toList,
          "<meta name=\"go-import\" content=\"fyne.io/fyne git https://github.com/fyne-io/fyne\">".toList]))
      "fyne.io/fyne/v2/cmd/fyne".toList "fyne.io".toList = [] :=
  resolveVanityURL_head_before_match _ _ _ ["<html>".toList] "<head><title>fyne</title></head>".toList
    ["<meta name=\"go-import\" content=\"fyne.io/fyne git https://github.com/fyne-io/fyne\">".toList]
    (by rfl) (by rfl) (by decide)

/-! ## The walk -/

theorem walkDir_append (env : Env) (acc : List BinInfo) (pre rest : List (GoString × DirEntry)) :
    walkDir env acc (pre ++ rest) =
      match walkDir env acc pre with
      | none => none
      | some (acc', none) => walkDir env acc' rest
      | some (acc', some err) => some (acc', some err) := by
  induction pre generalizing acc with
  | nil => simp [walkDir]
  | cons e es ih =>
    obtain ⟨path, d⟩ := e
    simp only [List.cons_append, walkDir]
    rcases hv : scanDirVisit env acc path (some d) with _ | ⟨acc1, _ | err⟩
    · simp
    · simpa using ih acc1
    · simp

/-- When the root of the walk cannot be examined, `scanDir` panics: the walk
hands the function a `nil` entry, on which the function calls `Type()`. -/
theorem scanDir_lstat_error (env : Env) (dir : GoString) (err : GoError)
    (h : env.lstat dir = Except.error err) : scanDir env dir = none := by
  simp [scanDir, h, scanDirVisit]

/-- On an executable file whose build information cannot be read, `scanFile`
returns the error of `buildinfo.ReadFile`, not `(nil, nil)`. -/
theorem scanFile_readFile_error (env : Env) (file : GoString) (info info' : FileInfo)
    (err : GoError)
    (hstat : statSymlink env file info = Except.ok info') (hexe : isExe env file info' = true)
    (hread : env.readFile file = Except.error err) :
    scanFile env file info = Except.error err := by
  unfold scanFile
  simp only [hstat, hexe, hread]
  rfl

/-- C3 (the claim fails): in the directory `/go/bin` with the binaries `arc`,
`bad` and `dlv`, walked in this order, of which `bad` has the module path
`github.com/tool` of two segments under a known provider, `scanDir` returns
the extraction error of `bad` with the record of `arc` alone: the binary
`dlv`, for which `scanFile` yields a record, is not visited, and `main` ends
in `log.Fatalln`. -/
theorem scanDir_error_drops_later_binaries :
    scanDir (envOfDir "/go/bin".toList
        [("arc".toList, buildInfoOf "github.com/mholt/archiver/v3/cmd/arc"
            "github.com/mholt/archiver/v3" "v3.5.1"),
         ("bad".toList, buildInfoOf "github.com/tool" "github.com/tool" "v1.0.0"),
         ("dlv".toList, buildInfoOf "github.com/go-delve/delve/cmd/dlv"
            "github.com/go-delve/delve" "v1.22.0")]) "/go/bin".toList
      = some ([{ filename := "arc".toList
                 packagePath := "github.com/mholt/archiver/v3/cmd/arc".toList
                 modulePath := "github.com/mholt/archiver/v3".toList
                 moduleVersion := "v3.5.1".toList
                 vcsRevision := "?".toList
                 repoURL := "https://github.com/mholt/archiver".toList }],
          some (ownerRepoError "github.com/tool".toList))
    ∧ scanFile (envOfDir "/go/bin".toList
        [("arc".toList, buildInfoOf "github.com/mholt/archiver/v3/cmd/arc"
            "github.com/mholt/archiver/v3" "v3.5.1"),
         ("bad".toList, buildInfoOf "github.com/tool" "github.com/tool" "v1.0.0"),
         ("dlv".toList, buildInfoOf "github.com/go-delve/delve/cmd/dlv"
            "github.com/go-delve/delve" "v1.22.0")]) "/go/bin/dlv".toList { Mode := 0o755 }
      = Except.ok (some
          { filename := "dlv".toList
            packagePath := "github.com/go-delve/delve/cmd/dlv".toList
            modulePath := "github.com/go-delve/delve".toList
            moduleVersion := "v1.22.0".toList
            vcsRevision := "?".toList
            repoURL := "https://github.com/go-delve/delve".toList })
    ∧ mainFrom (envOfDir "/go/bin".toList
        [("arc".toList, buildInfoOf "github.com/mholt/archiver/v3/cmd/arc"
            "github.com/mholt/archiver/v3" "v3.5.1"),
         ("bad".toList, buildInfoOf "github.com/tool" "github.com/tool" "v1.0.0"),
         ("dlv".toList, buildInfoOf "github.com/go-delve/delve/cmd/dlv"
            "github.com/go-delve/delve" "v1.22.0")]) "/go/bin".toList
      = Outcome.fatal ("Error scanning dir: ".toList ++ ownerRepoError "github.com/tool".toList) := by
  refine ⟨by rfl, by rfl, by rfl⟩

/-- C3 (amended): a hard owner/repo extraction error for one binary ends the
whole scan at that file: when the walk from `dir` reaches the file at `path`
after the calls `pre`, which gave the records `binInfos` and no error, and
`scanFile` fails on that file with the extraction error for `modulePath`,
`scanDir` returns that error with the records `binInfos` only, whatever the
walk had yet to visit, and `main` ends in `log.Fatalln` without printing. -/
theorem scanDir_stops_at_extraction_error (env : Env) (dir : GoString) (root : FsNode)
    (pre post : List (GoString × DirEntry)) (path : GoString) (d : DirEntry) (info : FileInfo)
    (binInfos : List BinInfo) (modulePath : GoString)
    (hlstat : env.lstat dir = Except.ok root)
    (hwalk : visits env root dir = pre ++ (path, d) :: post)
    (hpre : walkDir env [] pre = some (binInfos, none))
    (htype : (IsRegular d.Typ || d.Typ &&& ModeSymlink != 0) = true)
    (hinfo : d.Info = Except.ok info)
    (hscan : scanFile env path info = Except.error (ownerRepoError modulePath)) :
    scanDir env dir = some (binInfos, some (ownerRepoError modulePath))
      ∧ mainFrom env dir
          = Outcome.fatal ("Error scanning dir: ".toList ++ ownerRepoError modulePath) := by
  have h : scanDir env dir = some (binInfos, some (ownerRepoError modulePath)) := by
    unfold scanDir
    rw [hlstat]
    simp only []
    rw [hwalk, walkDir_append, hpre]
    simp [walkDir, scanDirVisit, htype, hinfo, hscan]
  exact ⟨h, by simp [mainFrom, h]⟩

/-- C3 (amended) on the directory `/go/bin` with the binaries `arc`, `bad` and
`dlv`, the second with the module path `github.com/tool`. -/
theorem scanDir_stops_at_extraction_error_witness :
    scanDir (envOfDir "/go/bin".toList
        [("dlv".toList, buildInfoOf "github.com/go-delve/delve/cmd/dlv"
            "github.com/go-delve/delve" "v1.22.0"),
         ("bad".toList, buildInfoOf "github.com/tool" "github.com/tool" "v1.0.0"),
         ("arc".toList, buildInfoOf "github.com/mholt/archiver/v3/cmd/arc"
            "github.com/mholt/archiver/v3" "v3.5.1")]) "/go/bin".toList
      = some ([{ filename := "arc".toList
                 packagePath := "github.com/mholt/archiver/v3/cmd/arc".toList
                 modulePath := "github.com/mholt/archiver/v3".toList
                 moduleVersion := "v3.5.1".toList
                 vcsRevision := "?".toList
                 repoURL := "https://github.com/mholt/archiver".toList }],
          some (ownerRepoError "github.com/tool".toList))
      ∧ mainFrom (envOfDir "/go/bin".toList
        [("dlv".toList, buildInfoOf "github.com/go-delve/delve/cmd/dlv"
            "github.com/go-delve/delve" "v1.22.0"),
         ("bad".toList, buildInfoOf "github.com/tool" "github.com/tool" "v1.0.0"),
         ("arc".toList, buildInfoOf "github.com/mholt/archiver/v3/cmd/arc"
            "github.com/mholt/archiver/v3" "v3.5.1")]) "/go/bin".toList
      = Outcome.fatal ("Error scanning dir: ".toList ++ ownerRepoError "github.com/tool".toList) :=
  scanDir_stops_at_extraction_error
    (envOfDir "/go/bin".toList
      [("dlv".toList, buildInfoOf "github.com/go-delve/delve/cmd/dlv"
          "github.com/go-delve/delve" "v1.22.0"),
       ("bad".toList, buildInfoOf "github.com/tool" "github.com/tool" "v1.0.0"),
       ("arc".toList, buildInfoOf "github.com/mholt/archiver/v3/cmd/arc"
          "github.com/mholt/archiver/v3" "v3.5.1")])
    "/go/bin".toList
    (FsNode.mk
      { Name := "bin".toList, Typ := ModeDir, Info := Except.ok { Mode := ModeDir ||| 0o755 } }
      [FsNode.mk { Name := "dlv".toList, Typ := 0, Info := Except.ok { Mode := 0o755 } } [] none,
       FsNode.mk { Name := "bad".toList, Typ := 0, Info := Except.ok { Mode := 0o755 } } [] none,
       FsNode.mk { Name := "arc".toList, Typ := 0, Info := Except.ok { Mode := 0o755 } } [] none]
      none)
    [("/go/bin".toList,
        { Name := "bin".toList, Typ := ModeDir, Info := Except.ok { Mode := ModeDir ||| 0o755 } }),
     ("/go/bin/arc".toList, { Name := "arc".toList, Typ := 0, Info := Except.ok { Mode := 0o755 } })]
    [("/go/bin/dlv".toList, { Name := "dlv".toList, Typ := 0, Info := Except.ok { Mode := 0o755 } })]
    "/go/bin/bad".toList { Name := "bad".toList, Typ := 0, Info := Except.ok { Mode := 0o755 } }
    { Mode := 0o755 } _ "github.com/tool".toList
    (by rfl) (by rfl) (by rfl) (by rfl) (by rfl) (by rfl)

/-! ## Printing -/

theorem goLen_append (a b : GoString) : goLen (a ++ b) = goLen a + goLen b := by
  simp [goLen]

theorem goLen_spaces (n : Nat) : goLen (List.replicate n ' ') = n := by
  induction n with
  | zero => simp [goLen]
  | succ k ih =>
    have h1 : goLen (' ' :: List.replicate k ' ') = goLen [' '] + goLen (List.replicate k ' ') :=
      goLen_append [' '] _
    have h2 : goLen [' '] = 1 := by decide
    rw [List.replicate_succ, h1, ih, h2]
    omega

theorem flatten_replicate_space (n : Nat) :
    (List.replicate n " ".toList).flatten = List.replicate n ' ' := by
  induction n with
  | zero => rfl
  | succ k ih =>
    rw [List.replicate_succ, List.flatten_cons, ih, List.replicate_succ]
    rfl

/-- The two variables of the first loop of `printResult` are the maxima of the
values they start from and the byte lengths of the two fields. -/
theorem maxLens_eq (mf mv : Nat) (binInfos : List BinInfo) :
    maxLens ((mf : Int), (mv : Int)) binInfos
      = (((max mf ((binInfos.map fun b => goLen b.filename).foldr max 0) : Nat) : Int),
         ((max mv ((binInfos.map fun b => goLen b.moduleVersion).foldr max 0) : Nat) : Int)) := by
  induction binInfos generalizing mf mv with
  | nil => simp [maxLens]
  | cons b bs ih =>
    have hf : (if (goLen b.filename : Int) > (mf : Int) then (goLen b.filename : Int) else (mf : Int))
        = ((max mf (goLen b.filename) : Nat) : Int) := by
      split <;> rename_i h
      · have : mf ≤ goLen b.filename := by omega
        rw [max_eq_right this]
      · have : goLen b.filename ≤ mf := by omega
        rw [max_eq_left this]
    have hv : (if (goLen b.moduleVersion : Int) > (mv : Int) then (goLen b.moduleVersion : Int)
          else (mv : Int))
        = ((max mv (goLen b.moduleVersion) : Nat) : Int) := by
      split <;> rename_i h
      · have : mv ≤ goLen b.moduleVersion := by omega
        rw [max_eq_right this]
      · have : goLen b.moduleVersion ≤ mv := by omega
        rw [max_eq_left this]
    simp only [maxLens, hf, hv, ih, List.map_cons, List.foldr_cons, max_assoc]

theorem le_foldr_max (l : List Nat) (n : Nat) (h : n ∈ l) : n ≤ l.foldr max 0 := by
  induction l with
  | nil => simp at h
  | cons a as ih =>
    rcases List.mem_cons.mp h with rfl | h'
    · exact le_max_left _ _
    · exact le_trans (ih h') (le_max_right _ _)

theorem stringsRepeat_space (m n : Nat) (h : n ≤ m) :
    stringsRepeat " ".toList ((m : Int) - (n : Int)) = some (List.replicate (m - n) ' ') := by
  have h1 : ¬ ((m : Int) - (n : Int) < 0) := by omega
  have h2 : ((m : Int) - (n : Int)).toNat = m - n := by omega
  simp only [stringsRepeat, h1, if_false, h2, flatten_replicate_space]

theorem printRow_of_le (mf mv : Nat) (b : BinInfo)
    (hf : goLen b.filename ≤ mf) (hv : goLen b.moduleVersion ≤ mv) :
    printRow (mf : Int) (mv : Int) b = some
      ((b.filename ++ List.replicate (mf - goLen b.filename) ' ') ++ " ".toList
        ++ (b.moduleVersion ++ List.replicate (mv - goLen b.moduleVersion) ' ')
        ++ " ".toList ++ b.repoURL ++ "\n".toList) := by
  simp only [printRow, stringsRepeat_space _ _ hf, stringsRepeat_space _ _ hv]

theorem printRows_of_le (mf mv : Nat) (binInfos : List BinInfo)
    (h : ∀ b ∈ binInfos, goLen b.filename ≤ mf ∧ goLen b.moduleVersion ≤ mv) :
    printRows (mf : Int) (mv : Int) binInfos = some (binInfos.map fun b =>
      (b.filename ++ List.replicate (mf - goLen b.filename) ' ') ++ " ".toList
        ++ (b.moduleVersion ++ List.replicate (mv - goLen b.moduleVersion) ' ')
        ++ " ".toList ++ b.repoURL ++ "\n".toList) := by
  induction binInfos with
  | nil => rfl
  | cons b bs ih =>
    have hb := h b (List.mem_cons_self _ _)
    rw [printRows, printRow_of_le mf mv b hb.1 hb.2,
      ih (fun x hx => h x (List.mem_cons_of_mem _ hx))]
    rfl

/-- C10: for every list of records, with `maxFileNameLen` and `maxVersionLen`
the largest byte lengths of a file name and of a version among the records
(0 for the empty list), which is what the first loop of `printResult`
computes: for every record both counts given to `strings.Repeat` are
non-negative and the calls return the paddings; `printResult` does not panic
and prints, for each record in turn, the line made of the padded file name, a
space, the padded version, a space, the URL and a newline; and in every line
the padded file name has byte length `maxFileNameLen` and the padded version
has byte length `maxVersionLen`, so that the versions of all lines start at
byte `maxFileNameLen + 1` and the URLs at byte
`maxFileNameLen + maxVersionLen + 2`. -/
theorem printResult_padding (binInfos : List BinInfo) :
    ∃ maxFileNameLen maxVersionLen : Nat,
      maxFileNameLen = (binInfos.map fun b => goLen b.filename).foldr max 0
      ∧ maxVersionLen = (binInfos.map fun b => goLen b.moduleVersion).foldr max 0
      ∧ maxLens (0, 0) binInfos = ((maxFileNameLen : Int), (maxVersionLen : Int))
      ∧ (∀ b ∈ binInfos,
          (0 : Int) ≤ (maxLens (0, 0) binInfos).1 - (goLen b.filename : Int)
          ∧ (0 : Int) ≤ (maxLens (0, 0) binInfos).2 - (goLen b.moduleVersion : Int)
          ∧ stringsRepeat " ".toList ((maxLens (0, 0) binInfos).1 - (goLen b.filename : Int))
              = some (List.replicate (maxFileNameLen - goLen b.filename) ' ')
          ∧ stringsRepeat " ".toList ((maxLens (0, 0) binInfos).2 - (goLen b.moduleVersion : Int))
              = some (List.replicate (maxVersionLen - goLen b.moduleVersion) ' '))
      ∧ printResult binInfos = some (binInfos.map fun b =>
          (b.filename ++ List.replicate (maxFileNameLen - goLen b.filename) ' ') ++ " ".toList
            ++ (b.moduleVersion ++ List.replicate (maxVersionLen - goLen b.moduleVersion) ' ')
            ++ " ".toList ++ b.repoURL ++ "\n".toList)
      ∧ ∀ b ∈ binInfos,
          goLen (b.filename ++ List.replicate (maxFileNameLen - goLen b.filename) ' ')
              = maxFileNameLen
          ∧ goLen (b.moduleVersion ++ List.replicate (maxVersionLen - goLen b.moduleVersion) ' ')
              = maxVersionLen
          ∧ goLen ((b.filename ++ List.replicate (maxFileNameLen - goLen b.filename) ' ')
              ++ " ".toList) = maxFileNameLen + 1
          ∧ goLen ((b.filename ++ List.replicate (maxFileNameLen - goLen b.filename) ' ')
              ++ " ".toList
              ++ (b.moduleVersion ++ List.replicate (maxVersionLen - goLen b.moduleVersion) ' ')
              ++ " ".toList) = maxFileNameLen + maxVersionLen + 2 := by
  have hm : maxLens (0, 0) binInfos
      = ((((binInfos.map fun b => goLen b.filename).foldr max 0 : Nat) : Int),
         (((binInfos.map fun b => goLen b.moduleVersion).foldr max 0 : Nat) : Int)) := by
    have h := maxLens_eq 0 0 binInfos
    simpa using h
  have hle : ∀ b ∈ binInfos,
      goLen b.filename ≤ (binInfos.map fun b => goLen b.filename).foldr max 0
      ∧ goLen b.moduleVersion ≤ (binInfos.map fun b => goLen b.moduleVersion).foldr max 0 :=
    fun b hb => ⟨le_foldr_max _ _ (List.mem_map_of_mem (fun b => goLen b.filename) hb),
      le_foldr_max _ _ (List.mem_map_of_mem (fun b => goLen b.moduleVersion) hb)⟩
  have hsp : goLen " ".toList = 1 := by decide
  refine ⟨_, _, rfl, rfl, hm, ?_, ?_, ?_⟩
  · intro b hb
    obtain ⟨hf, hv⟩ := hle b hb
    rw [hm]
    exact ⟨by simp only []; omega, by simp only []; omega,
      stringsRepeat_space _ _ hf, stringsRepeat_space _ _ hv⟩
  · unfold printResult
    rw [hm]
    exact printRows_of_le _ _ binInfos hle
  · intro b hb
    obtain ⟨hf, hv⟩ := hle b hb
    have h1 : goLen (b.filename ++ List.replicate
        ((binInfos.map fun b => goLen b.filename).foldr max 0 - goLen b.filename) ' ')
        = (binInfos.map fun b => goLen b.filename).foldr max 0 := by
      rw [goLen_append, goLen_spaces]; omega
    have h2 : goLen (b.moduleVersion ++ List.replicate
        ((binInfos.map fun b => goLen b.moduleVersion).foldr max 0 - goLen b.moduleVersion) ' ')
        = (binInfos.map fun b => goLen b.moduleVersion).foldr max 0 := by
      rw [goLen_append, goLen_spaces]; omega
    refine ⟨h1, h2, ?_, ?_⟩
    · rw [goLen_append, h1, hsp]
    · rw [goLen_append, goLen_append, goLen_append, h1, h2, hsp]
      omega

/-! ## Greedy repetition -/

theorem repStar_append_some {R : Type} (cls : Char → Bool) (k : GoString → Option R)
    (a b : GoString) (r : R) (ha : ∀ c ∈ a, cls c = true) (hb : repStar cls k b = some r) :
    repStar cls k (a ++ b) = some r := by
  induction a with
  | nil => simpa using hb
  | cons c cs ih =>
    have hc : cls c = true := ha c (List.mem_cons_self _ _)
    have ih' := ih (fun x hx => ha x (List.mem_cons_of_mem _ hx))
    simp [repStar, hc, ih']

theorem repStar_none {R : Type} (cls : Char → Bool) (k : GoString → Option R) (s : GoString)
    (h : ∀ t, t <:+ s → k t = none) : repStar cls k s = none := by
  induction s with
  | nil => simpa [repStar] using h [] (List.suffix_refl _)
  | cons c cs ih =>
    have ih' := ih (fun t ht => h t (ht.trans (List.suffix_cons _ _)))
    have h0 := h (c :: cs) (List.suffix_refl _)
    unfold repStar
    split <;> simp [ih', h0]

theorem repStar_sound {R : Type} (cls : Char → Bool) (k : GoString → Option R) (s : GoString)
    (r : R) (h : repStar cls k s = some r) : ∃ t, t <:+ s ∧ k t = some r := by
  induction s with
  | nil => exact ⟨[], List.suffix_refl _, by simpa [repStar] using h⟩
  | cons c cs ih =>
    unfold repStar at h
    split at h
    · cases hr : repStar cls k cs with
      | some r' =>
        rw [hr] at h
        obtain ⟨t, ht, hk⟩ := ih (by rw [hr, ← h])
        exact ⟨t, ht.trans (List.suffix_cons _ _), hk⟩
      | none =>
        rw [hr] at h
        exact ⟨c :: cs, List.suffix_refl _, h⟩
    · exact ⟨c :: cs, List.suffix_refl _, h⟩

theorem repStar_cases {R : Type} (cls : Char → Bool) (k : GoString → Option R) (s : GoString)
    (r : R) (h : ∀ t, t <:+ s → k t = none ∨ k t = some r) :
    repStar cls k s = none ∨ repStar cls k s = some r := by
  cases hr : repStar cls k s with
  | none => exact Or.inl rfl
  | some r' =>
    obtain ⟨t, ht, hk⟩ := repStar_sound cls k s r' hr
    rcases h t ht with h0 | h0
    · rw [h0] at hk; cases hk
    · rw [h0] at hk; exact Or.inr hk.symm

theorem repStar_stop {R : Type} (cls : Char → Bool) (k : GoString → Option R) (c : Char)
    (cs : GoString) (hc : cls c = false) : repStar cls k (c :: cs) = k (c :: cs) := by
  simp [repStar, hc]

theorem repStar_last {R : Type} (cls : Char → Bool) (k : GoString → Option R) (c : Char)
    (cs : GoString) (h : repStar cls k cs = none) : repStar cls k (c :: cs) = k (c :: cs) := by
  unfold repStar
  split <;> simp [h]

/-! ## What a match consumes -/

theorem matchNodes_step (n : RNode) (rest : List RNode) (g cap s r : GoString)
    (h : matchNodes (n :: rest) g cap s = some r) :
    ∃ g' cap' t, t <:+ s ∧ matchNodes rest g' cap' t = some r
      ∧ ∀ cls, n = RNode.rep cls Quant.one → ∃ c, s = c :: t ∧ cls c = true := by
  cases n with
  | groupOpen => exact ⟨s, cap, s, List.suffix_refl _, by simpa [matchNodes] using h, by simp⟩
  | groupClose =>
    exact ⟨g, _, s, List.suffix_refl _, by simpa [matchNodes] using h, by simp⟩
  | rep cls q =>
    cases q with
    | one =>
      cases s with
      | nil => simp [matchNodes] at h
      | cons c cs =>
        by_cases hc : cls c = true
        · refine ⟨g, cap, cs, List.suffix_cons _ _, by simpa [matchNodes, hc] using h, ?_⟩
          intro cls' hcls
          cases hcls
          exact ⟨c, rfl, hc⟩
        · simp [matchNodes, hc] at h
    | opt =>
      cases s with
      | nil => exact ⟨g, cap, [], List.suffix_refl _, by simpa [matchNodes] using h, by simp⟩
      | cons c cs =>
        by_cases hc : cls c = true
        · cases hr : matchNodes rest g cap cs with
          | some r' =>
            simp only [matchNodes, hc, hr, if_true] at h
            exact ⟨g, cap, cs, List.suffix_cons _ _, by rw [hr, h], by simp⟩
          | none =>
            simp only [matchNodes, hc, hr, if_true] at h
            exact ⟨g, cap, c :: cs, List.suffix_refl _, h, by simp⟩
        · simp only [matchNodes, hc] at h
          exact ⟨g, cap, c :: cs, List.suffix_refl _, by simpa using h, by simp⟩
    | star =>
      simp only [matchNodes] at h
      obtain ⟨t, ht, hk⟩ := repStar_sound _ _ _ _ h
      exact ⟨g, cap, t, ht, hk, by simp⟩
    | plus =>
      cases s with
      | nil => simp [matchNodes] at h
      | cons c cs =>
        by_cases hc : cls c = true
        · simp only [matchNodes, hc, if_true] at h
          obtain ⟨t, ht, hk⟩ := repStar_sound _ _ _ _ h
          exact ⟨g, cap, t, ht.trans (List.suffix_cons _ _), hk, by simp⟩
        · simp [matchNodes, hc] at h

/-- A match of a pattern with a one-character item of class `cls` needs a
character of that class in the input. -/
theorem matchNodes_needs (front back : List RNode) (cls : Char → Bool) (g cap s r : GoString)
    (h : matchNodes (front ++ RNode.rep cls Quant.one :: back) g cap s = some r) :
    ∃ x ∈ s, cls x = true := by
  induction front generalizing g cap s with
  | nil =>
    obtain ⟨_, _, t, _, _, hone⟩ := matchNodes_step _ _ g cap s r h
    obtain ⟨c, rfl, hc⟩ := hone cls rfl
    exact ⟨c, List.mem_cons_self _ _, hc⟩
  | cons n ns ih =>
    obtain ⟨g', cap', t, ht, hm, _⟩ := matchNodes_step _ _ g cap s r h
    obtain ⟨x, hx, hc⟩ := ih g' cap' t hm
    exact ⟨x, ht.subset hx, hc⟩

/-! ## The pattern on a directive -/

theorem vanityRegex_eq :
    vanityRegex = lit "<" ++ RNode.rep (fun x => x == ' ') Quant.star :: reMeta := by
  simp [vanityRegex, reMeta, reWord, reURL, reTerm]

theorem matchNodes_lit_append (cs : List Char) (rest : List RNode) (g cap t : GoString) :
    matchNodes (cs.map (fun c => RNode.rep (fun x => x == c) Quant.one) ++ rest) g cap (cs ++ t)
      = matchNodes rest g cap t := by
  induction cs with
  | nil => rfl
  | cons c cs ih => simp [matchNodes, ih]

theorem matchNodes_lit_sound (cs : List Char) (rest : List RNode) (g cap s r : GoString)
    (h : matchNodes (cs.map (fun c => RNode.rep (fun x => x == c) Quant.one) ++ rest) g cap s
      = some r) :
    ∃ t, s = cs ++ t ∧ matchNodes rest g cap t = some r := by
  induction cs generalizing s with
  | nil => exact ⟨s, rfl, h⟩
  | cons c cs ih =>
    cases s with
    | nil => simp [matchNodes] at h
    | cons x xs =>
      by_cases hx : (x == c) = true
      · simp only [List.map_cons, List.cons_append, matchNodes, hx, if_true] at h
        obtain ⟨t, rfl, ht⟩ := ih xs h
        have hxc : x = c := by simpa using hx
        exact ⟨t, by simp [hxc], ht⟩
      · simp [matchNodes, hx] at h

theorem suffix_append_head (a b t : GoString) (h : t <:+ a ++ b) :
    (∃ c cs, t = c :: cs ∧ c ∈ a) ∨ t <:+ b := by
  induction a with
  | nil => exact Or.inr (by simpa using h)
  | cons x xs ih =>
    rcases List.suffix_cons_iff.mp h with rfl | h'
    · exact Or.inl ⟨x, xs ++ b, rfl, List.mem_cons_self _ _⟩
    · rcases ih h' with ⟨c, cs, rfl, hc⟩ | hb
      · exact Or.inl ⟨c, cs, rfl, List.mem_cons_of_mem _ hc⟩
      · exact Or.inr hb

theorem suffix_append_cons (a : GoString) (c : Char) (b t : GoString) (h : t <:+ a ++ c :: b) :
    (∃ a', a' <:+ a ∧ t = a' ++ c :: b) ∨ t <:+ b := by
  induction a with
  | nil =>
    rcases List.suffix_cons_iff.mp (by simpa using h) with rfl | h'
    · exact Or.inl ⟨[], List.suffix_refl _, rfl⟩
    · exact Or.inr h'
  | cons x xs ih =>
    rcases List.suffix_cons_iff.mp h with rfl | h'
    · exact Or.inl ⟨x :: xs, List.suffix_refl _, rfl⟩
    · rcases ih h' with ⟨a', ha, rfl⟩ | hb
      · exact Or.inl ⟨a', ha.trans (List.suffix_cons _ _), rfl⟩
      · exact Or.inr hb

theorem matchNodes_back (front back : List RNode) (g cap s r : GoString)
    (h : matchNodes (front ++ back) g cap s = some r) :
    ∃ g' cap' t, t <:+ s ∧ matchNodes back g' cap' t = some r := by
  induction front generalizing g cap s with
  | nil => exact ⟨g, cap, s, List.suffix_refl _, h⟩
  | cons n ns ih =>
    obtain ⟨g1, cap1, t1, ht1, hm, -⟩ := matchNodes_step _ _ g cap s r h
    obtain ⟨g2, cap2, t2, ht2, hm2⟩ := ih g1 cap1 t1 hm
    exact ⟨g2, cap2, t2, ht2.trans ht1, hm2⟩

/-- A match of the end of the pattern starts at a double quote and needs a
`>`. -/
theorem reTerm_sound (g cap t r : GoString) (h : matchNodes reTerm g cap t = some r) :
    (∃ t', t = '"' :: t') ∧ '"' ∈ t ∧ '>' ∈ t := by
  have e2 : reTerm = [RNode.groupClose, RNode.rep (fun x => x == '"') Quant.one,
      RNode.rep (fun x => x == ' ') Quant.star, RNode.rep (fun x => x == '\\') Quant.opt]
      ++ RNode.rep (fun x => x == '>') Quant.one :: [] := rfl
  have h1 : ∃ t', t = '"' :: t' := by
    have h' : matchNodes (RNode.rep (fun x => x == '"') Quant.one ::
        [RNode.rep (fun x => x == ' ') Quant.star, RNode.rep (fun x => x == '\\') Quant.opt,
          RNode.rep (fun x => x == '>') Quant.one]) g (g.take (g.length - t.length)) t
        = some r := h
    obtain ⟨-, -, t1, -, -, hone⟩ := matchNodes_step _ _ _ _ t r h'
    obtain ⟨c, rfl, hc⟩ := hone _ rfl
    have hce : c = '"' := by simpa using hc
    exact ⟨t1, by rw [hce]⟩
  obtain ⟨x, hx, hxq⟩ := matchNodes_needs _ _ _ g cap t r (e2 ▸ h)
  have hxe : x = '>' := by simpa using hxq
  obtain ⟨t', rfl⟩ := h1
  exact ⟨⟨t', rfl⟩, List.mem_cons_self _ _, hxe ▸ hx⟩

/-- A match of the pattern from the space before the URL on starts at a space
and needs a double quote and a `>`. -/
theorem reURL_sound (g cap t r : GoString) (h : matchNodes reURL g cap t = some r) :
    (∃ t', t = ' ' :: t') ∧ '"' ∈ t ∧ '>' ∈ t := by
  have e1 : reURL = RNode.rep (fun x => x == ' ') Quant.one ::
      ([RNode.groupOpen] ++ lit "http" ++ [RNode.rep (fun x => x == 's') Quant.opt]
        ++ lit "://" ++ [RNode.rep dotClass Quant.plus] ++ reTerm) := rfl
  have e2 : reURL = (lit " " ++ [RNode.groupOpen] ++ lit "http"
      ++ [RNode.rep (fun x => x == 's') Quant.opt] ++ lit "://"
      ++ [RNode.rep dotClass Quant.plus]) ++ reTerm := rfl
  obtain ⟨-, -, t1, -, -, hone⟩ := matchNodes_step _ _ g cap t r (e1 ▸ h)
  obtain ⟨c, rfl, hc⟩ := hone _ rfl
  have hce : c = ' ' := by simpa using hc
  obtain ⟨g2, cap2, t2, ht2, hm2⟩ := matchNodes_back _ _ g cap _ r (e2 ▸ h)
  obtain ⟨-, hq, hgt⟩ := reTerm_sound g2 cap2 t2 r hm2
  exact ⟨⟨t1, by rw [hce]⟩, ht2.subset hq, ht2.subset hgt⟩

/-- A match of the pattern from the space before the word on starts at a
space and needs a double quote and a `>`. -/
theorem reWord_sound (g cap t r : GoString) (h : matchNodes reWord g cap t = some r) :
    (∃ t', t = ' ' :: t') ∧ '"' ∈ t ∧ '>' ∈ t := by
  have e1 : reWord = RNode.rep (fun x => x == ' ') Quant.one ::
      ([RNode.rep wordClass Quant.plus] ++ reURL) := rfl
  have e2 : reWord = (lit " " ++ [RNode.rep wordClass Quant.plus]) ++ reURL := rfl
  obtain ⟨-, -, t1, -, -, hone⟩ := matchNodes_step _ _ g cap t r (e1 ▸ h)
  obtain ⟨c, rfl, hc⟩ := hone _ rfl
  have hce : c = ' ' := by simpa using hc
  obtain ⟨g2, cap2, t2, ht2, hm2⟩ := matchNodes_back _ _ g cap _ r (e2 ▸ h)
  obtain ⟨-, hq, hgt⟩ := reURL_sound g2 cap2 t2 r hm2
  exact ⟨⟨t1, by rw [hce]⟩, ht2.subset hq, ht2.subset hgt⟩

/-- No match of a pattern that starts at a space and needs `z` begins in the
text from the URL on, when the URL has no space and the text after the
directive has no `z`. -/
theorem blocked_after_url (u post t : GoString) (z : Char)
    (hsp : ' ' ∉ u) (hz : z ∉ post) (ht : t <:+ u ++ '"' :: '>' :: post)
    (hhead : ∃ t', t = ' ' :: t') (hmem : z ∈ t) : False := by
  obtain ⟨t', rfl⟩ := hhead
  rcases suffix_append_head u _ _ ht with ⟨c, cs, he, hc⟩ | h1
  · cases he; exact hsp hc
  · rcases List.suffix_cons_iff.mp h1 with he | h2
    · cases he
    · rcases List.suffix_cons_iff.mp h2 with he | h3
      · cases he
      · exact hz (h3.subset hmem)

theorem reTerm_at_end (u post cap : GoString) :
    matchNodes reTerm (u ++ '"' :: '>' :: post) cap ('"' :: '>' :: post) = some u := by
  have hlen : (u ++ '"' :: '>' :: post).length - ('"' :: '>' :: post).length = u.length := by
    simp
  have e : reTerm = RNode.groupClose :: RNode.rep (fun x => x == '"') Quant.one ::
      RNode.rep (fun x => x == ' ') Quant.star :: RNode.rep (fun x => x == '\\') Quant.opt ::
      RNode.rep (fun x => x == '>') Quant.one :: [] := rfl
  rw [e]
  simp only [matchNodes, hlen, List.take_left']
  simp [repStar, matchNodes]

theorem reTerm_none_after (post g cap t : GoString) (z : Char) (hz : z = '"' ∨ z = '>')
    (hzp : z ∉ post) (ht : t <:+ '>' :: post) : matchNodes reTerm g cap t = none := by
  cases hr : matchNodes reTerm g cap t with
  | none => rfl
  | some r =>
    exfalso
    obtain ⟨⟨t', rfl⟩, hq, hgt⟩ := reTerm_sound g cap t r hr
    have hzt : z ∈ '"' :: t' := by rcases hz with rfl | rfl <;> assumption
    rcases List.suffix_cons_iff.mp ht with he | h2
    · cases he
    · exact hzp (h2.subset hzt)

/-- The greedy `.+` of the group stops at the end of the URL. -/
theorem group_body (u xs post cap : GoString) (z : Char) (hz : z = '"' ∨ z = '>')
    (hzp : z ∉ post) (hxs : ∀ c ∈ xs, dotClass c = true) :
    repStar dotClass (matchNodes reTerm (u ++ '"' :: '>' :: post) cap)
      (xs ++ '"' :: '>' :: post) = some u := by
  apply repStar_append_some _ _ _ _ _ hxs
  rw [repStar_last _ _ _ _
    (repStar_none _ _ _ (fun t ht => reTerm_none_after post _ cap t z hz hzp ht))]
  exact reTerm_at_end u post cap

theorem reURL_at_url (proto x post g cap : GoString)
    (hproto : proto = "http://".toList ∨ proto = "https://".toList) (hx : x ≠ [])
    (z : Char) (hz : z = '"' ∨ z = '>') (hzp : z ∉ post)
    (hnl : ∀ c ∈ x, dotClass c = true) :
    matchNodes reURL g cap (' ' :: (proto ++ x) ++ '"' :: '>' :: post) = some (proto ++ x) := by
  obtain ⟨x0, xs, rfl⟩ := List.exists_cons_of_ne_nil hx
  have hx0 : dotClass x0 = true := hnl x0 (List.mem_cons_self _ _)
  have hxs : ∀ c ∈ xs, dotClass c = true := fun c hc => hnl c (List.mem_cons_of_mem _ hc)
  rcases hproto with rfl | rfl
  · have hb := group_body ("http://".toList ++ x0 :: xs) xs post cap z hz hzp hxs
    simp [reURL, lit, matchNodes, hx0] at hb ⊢
    exact hb
  · have hb := group_body ("https://".toList ++ x0 :: xs) xs post cap z hz hzp hxs
    simp [reURL, lit, matchNodes, hx0] at hb ⊢
    simp [hb]

theorem wordClass_space : wordClass ' ' = false := by decide

theorem matchNodes_one (cls : Char → Bool) (rest : List RNode) (g cap : GoString) (c : Char)
    (cs : GoString) (hc : cls c = true) :
    matchNodes (RNode.rep cls Quant.one :: rest) g cap (c :: cs) = matchNodes rest g cap cs := by
  simp [matchNodes, hc]

theorem matchNodes_plus (cls : Char → Bool) (rest : List RNode) (g cap : GoString) (c : Char)
    (cs : GoString) (hc : cls c = true) :
    matchNodes (RNode.rep cls Quant.plus :: rest) g cap (c :: cs)
      = repStar cls (matchNodes rest g cap) cs := by
  simp [matchNodes, hc]

theorem matchNodes_star (cls : Char → Bool) (rest : List RNode) (g cap s : GoString) :
    matchNodes (RNode.rep cls Quant.star :: rest) g cap s
      = repStar cls (matchNodes rest g cap) s := by
  simp [matchNodes]

theorem reWord_at_word (v proto x post g cap : GoString)
    (hv : v ≠ []) (hvw : ∀ c ∈ v, wordClass c = true)
    (hproto : proto = "http://".toList ∨ proto = "https://".toList) (hx : x ≠ [])
    (z : Char) (hz : z = '"' ∨ z = '>') (hzp : z ∉ post)
    (hnl : ∀ c ∈ x, dotClass c = true) :
    matchNodes reWord g cap (' ' :: v ++ ' ' :: (proto ++ x) ++ '"' :: '>' :: post)
      = some (proto ++ x) := by
  obtain ⟨v0, vs, rfl⟩ := List.exists_cons_of_ne_nil hv
  have hv0 : wordClass v0 = true := hvw v0 (List.mem_cons_self _ _)
  have hvs : ∀ c ∈ vs, wordClass c = true := fun c hc => hvw c (List.mem_cons_of_mem _ hc)
  have e : reWord = RNode.rep (fun x => x == ' ') Quant.one ::
      RNode.rep wordClass Quant.plus :: reURL := rfl
  have hu := reURL_at_url proto x post g cap hproto hx z hz hzp hnl
  rw [e]
  simp only [List.cons_append, List.append_assoc]
  rw [matchNodes_one _ _ _ _ _ _ (by rfl), matchNodes_plus _ _ _ _ _ _ hv0]
  apply repStar_append_some _ _ _ _ _ hvs
  rw [repStar_stop _ _ _ _ wordClass_space]
  simpa using hu

/-- No match of the pattern from the space before the word on begins after
the space that precedes the word of the directive. -/
theorem reWord_none_after (v proto x post g cap t : GoString)
    (hvw : ∀ c ∈ v, wordClass c = true)
    (hproto : proto = "http://".toList ∨ proto = "https://".toList)
    (z : Char) (hz : z = '"' ∨ z = '>') (hzp : z ∉ post) (hsp : ' ' ∉ x)
    (ht : t <:+ v ++ ' ' :: (proto ++ x) ++ '"' :: '>' :: post) :
    matchNodes reWord g cap t = none := by
  have hspu : ' ' ∉ proto ++ x := by
    rcases hproto with rfl | rfl <;> simpa using hsp
  cases hr : matchNodes reWord g cap t with
  | none => rfl
  | some r =>
    exfalso
    obtain ⟨⟨t', rfl⟩, hq, hgt⟩ := reWord_sound g cap t r hr
    have hzt : z ∈ ' ' :: t' := by rcases hz with rfl | rfl <;> assumption
    rw [List.append_assoc] at ht
    rcases suffix_append_head v _ _ ht with ⟨c, cs, he, hc⟩ | h1
    · cases he
      have := hvw _ hc
      rw [wordClass_space] at this
      cases this
    · rcases List.suffix_cons_iff.mp h1 with he | h2
      · -- the space between the word and the URL: the word would start inside the URL
        have hcs : t' = (proto ++ x) ++ '"' :: '>' :: post := by
          simpa using he
        subst hcs
        have e : reWord = RNode.rep (fun x => x == ' ') Quant.one ::
            RNode.rep wordClass Quant.plus :: reURL := rfl
        rw [e] at hr
        obtain ⟨u', hu'⟩ : ∃ u', proto ++ x = 'h' :: u' := by
          rcases hproto with rfl | rfl <;> exact ⟨_, rfl⟩
        rw [hu'] at hr hspu
        simp only [List.cons_append] at hr
        rw [matchNodes_one _ _ _ _ _ _ (by rfl),
          matchNodes_plus _ _ _ _ _ _ (show wordClass 'h' = true by decide)] at hr
        have hnone : repStar wordClass (matchNodes reURL g cap) (u' ++ '"' :: '>' :: post)
            = none := by
          apply repStar_none
          intro s hs
          cases hs' : matchNodes reURL g cap s with
          | none => rfl
          | some r' =>
            exfalso
            obtain ⟨hh, hq', hgt'⟩ := reURL_sound g cap s r' hs'
            have hzs : z ∈ s := by rcases hz with rfl | rfl <;> assumption
            exact blocked_after_url ('h' :: u') post s z hspu hzp
              (hs.trans (List.suffix_cons _ _)) hh hzs
        rw [hnone] at hr
        cases hr
      · exact blocked_after_url (proto ++ x) post _ z hspu hzp
          (by simpa using h2) ⟨t', rfl⟩ hzt

/-- The greedy `.+` of the module path ends at the space before the word of
the directive, whatever text without line break precedes that space. -/
theorem module_body (p v proto x post g cap : GoString)
    (hp : ∀ c ∈ p, dotClass c = true)
    (hv : v ≠ []) (hvw : ∀ c ∈ v, wordClass c = true)
    (hproto : proto = "http://".toList ∨ proto = "https://".toList) (hx : x ≠ [])
    (z : Char) (hz : z = '"' ∨ z = '>') (hzp : z ∉ post) (hsp : ' ' ∉ x)
    (hnl : ∀ c ∈ x, dotClass c = true) :
    repStar dotClass (matchNodes reWord g cap)
      (p ++ ' ' :: v ++ ' ' :: (proto ++ x) ++ '"' :: '>' :: post) = some (proto ++ x) := by
  have h0 : repStar dotClass (matchNodes reWord g cap)
      (' ' :: v ++ ' ' :: (proto ++ x) ++ '"' :: '>' :: post) = some (proto ++ x) := by
    simp only [List.cons_append]
    rw [repStar_last _ _ _ _ (repStar_none _ _ _ (fun t ht =>
      reWord_none_after v proto x post g cap t hvw hproto z hz hzp hsp (by simpa using ht)))]
    simpa using reWord_at_word v proto x post g cap hv hvw hproto hx z hz hzp hnl
  have := repStar_append_some _ _ p _ _ hp h0
  simpa using this

/-- Wherever in the line the greedy `.+` of the module path starts, it ends at
the space before the word of the directive or the match fails. -/
theorem module_body_cases (p v proto x post g cap t : GoString)
    (hp : ∀ c ∈ p, dotClass c = true)
    (hv : v ≠ []) (hvw : ∀ c ∈ v, wordClass c = true)
    (hproto : proto = "http://".toList ∨ proto = "https://".toList) (hx : x ≠ [])
    (z : Char) (hz : z = '"' ∨ z = '>') (hzp : z ∉ post) (hsp : ' ' ∉ x)
    (hnl : ∀ c ∈ x, dotClass c = true)
    (ht : t <:+ p ++ ' ' :: (v ++ ' ' :: ((proto ++ x) ++ '"' :: '>' :: post))) :
    repStar dotClass (matchNodes reWord g cap) t = none
      ∨ repStar dotClass (matchNodes reWord g cap) t = some (proto ++ x) := by
  rcases suffix_append_cons p ' ' _ t ht with ⟨p', hp', rfl⟩ | h1
  · right
    have := module_body p' v proto x post g cap (fun c hc => hp c (hp'.subset hc))
      hv hvw hproto hx z hz hzp hsp hnl
    simpa using this
  · left
    apply repStar_none
    intro s hs
    exact reWord_none_after v proto x post g cap s hvw hproto z hz hzp hsp
      (by simpa using hs.trans h1)

theorem reMeta_cases (p v proto x post g cap t : GoString)
    (hp : ∀ c ∈ p, dotClass c = true)
    (hv : v ≠ []) (hvw : ∀ c ∈ v, wordClass c = true)
    (hproto : proto = "http://".toList ∨ proto = "https://".toList) (hx : x ≠ [])
    (z : Char) (hz : z = '"' ∨ z = '>') (hzp : z ∉ post) (hsp : ' ' ∉ x)
    (hnl : ∀ c ∈ x, dotClass c = true)
    (ht : t <:+ p ++ ' ' :: (v ++ ' ' :: ((proto ++ x) ++ '"' :: '>' :: post))) :
    matchNodes reMeta g cap t = none ∨ matchNodes reMeta g cap t = some (proto ++ x) := by
  cases hr : matchNodes reMeta g cap t with
  | none => exact Or.inl rfl
  | some r =>
    right
    have e : reMeta = ("meta name=\"go-import\" content=\"".toList.map
        fun c => RNode.rep (fun x => x == c) Quant.one)
        ++ RNode.rep dotClass Quant.plus :: reWord := rfl
    rw [e] at hr
    obtain ⟨t1, rfl, h1⟩ := matchNodes_lit_sound _ _ g cap t r hr
    cases t1 with
    | nil => simp [matchNodes] at h1
    | cons c cs =>
      by_cases hc : dotClass c = true
      · rw [matchNodes_plus _ _ _ _ _ _ hc] at h1
        have hsuf : cs <:+ p ++ ' ' :: (v ++ ' ' :: ((proto ++ x) ++ '"' :: '>' :: post)) :=
          ((List.suffix_cons c cs).trans (List.suffix_append _ _)).trans ht
        rcases module_body_cases p v proto x post g cap cs hp hv hvw hproto hx z hz hzp hsp
          hnl hsuf with h0 | h0
        · rw [h0] at h1; cases h1
        · rw [h0] at h1; rw [← h1]
      · simp [matchNodes, hc] at h1

theorem vanityRegex_cases (p v proto x post t : GoString)
    (hp : ∀ c ∈ p, dotClass c = true)
    (hv : v ≠ []) (hvw : ∀ c ∈ v, wordClass c = true)
    (hproto : proto = "http://".toList ∨ proto = "https://".toList) (hx : x ≠ [])
    (z : Char) (hz : z = '"' ∨ z = '>') (hzp : z ∉ post) (hsp : ' ' ∉ x)
    (hnl : ∀ c ∈ x, dotClass c = true)
    (ht : t <:+ p ++ ' ' :: (v ++ ' ' :: ((proto ++ x) ++ '"' :: '>' :: post))) :
    matchNodes vanityRegex [] [] t = none
      ∨ matchNodes vanityRegex [] [] t = some (proto ++ x) := by
  have e : vanityRegex = RNode.rep (fun x => x == '<') Quant.one ::
      RNode.rep (fun x => x == ' ') Quant.star :: reMeta := vanityRegex_eq
  rw [e]
  cases t with
  | nil => left; simp [matchNodes]
  | cons c cs =>
    by_cases hc : (c == '<') = true
    · rw [matchNodes_one (fun x => x == '<') _ _ _ _ _ hc, matchNodes_star]
      apply repStar_cases
      intro s hs
      exact reMeta_cases p v proto x post [] [] s hp hv hvw hproto hx z hz hzp hsp hnl
        ((hs.trans (List.suffix_cons _ _)).trans ht)
    · left; simp [matchNodes, hc]

theorem vanityRegex_at_directive (m v proto x post : GoString)
    (hm : m ≠ []) (hmnl : ∀ c ∈ m, dotClass c = true)
    (hv : v ≠ []) (hvw : ∀ c ∈ v, wordClass c = true)
    (hproto : proto = "http://".toList ∨ proto = "https://".toList) (hx : x ≠ [])
    (z : Char) (hz : z = '"' ∨ z = '>') (hzp : z ∉ post) (hsp : ' ' ∉ x)
    (hnl : ∀ c ∈ x, dotClass c = true) :
    matchNodes vanityRegex [] [] (goImportDirective m v (proto ++ x) ++ post)
      = some (proto ++ x) := by
  obtain ⟨m0, ms, rfl⟩ := List.exists_cons_of_ne_nil hm
  have hm0 : dotClass m0 = true := hmnl m0 (List.mem_cons_self _ _)
  have hms : ∀ c ∈ ms, dotClass c = true := fun c hc => hmnl c (List.mem_cons_of_mem _ hc)
  have e : vanityRegex = RNode.rep (fun x => x == '<') Quant.one ::
      RNode.rep (fun x => x == ' ') Quant.star ::
      (("meta name=\"go-import\" content=\"".toList.map
        fun c => RNode.rep (fun x => x == c) Quant.one)
        ++ RNode.rep dotClass Quant.plus :: reWord) := vanityRegex_eq
  have el : goImportDirective (m0 :: ms) v (proto ++ x) ++ post
      = '<' :: 'm' :: ("eta name=\"go-import\" content=\"".toList
          ++ m0 :: (ms ++ ' ' :: v ++ ' ' :: (proto ++ x) ++ '"' :: '>' :: post)) := by
    simp [goImportDirective]
  rw [e, el, matchNodes_one _ _ _ _ _ _ (by rfl), matchNodes_star,
    repStar_stop _ _ _ _ (by rfl)]
  have el2 : 'm' :: ("eta name=\"go-import\" content=\"".toList
          ++ m0 :: (ms ++ ' ' :: v ++ ' ' :: (proto ++ x) ++ '"' :: '>' :: post))
      = "meta name=\"go-import\" content=\"".toList
          ++ m0 :: (ms ++ ' ' :: v ++ ' ' :: (proto ++ x) ++ '"' :: '>' :: post) := rfl
  rw [el2, matchNodes_lit_append, matchNodes_plus _ _ _ _ _ _ hm0]
  exact module_body ms v proto x post [] [] hms hv hvw hproto hx z hz hzp hsp hnl

theorem findStringSubmatch_of_cases (re : List RNode) (p s r : GoString)
    (hall : ∀ t, t <:+ p ++ s → matchNodes re [] [] t = none ∨ matchNodes re [] [] t = some r)
    (hs : matchNodes re [] [] s = some r) :
    findStringSubmatch re (p ++ s) = some r := by
  induction p with
  | nil =>
    cases s with
    | nil => simpa [findStringSubmatch] using hs
    | cons c cs => simp [findStringSubmatch, hs]
  | cons c cs ih =>
    have ih' := ih (fun t ht => hall t (ht.trans (List.suffix_cons _ _)))
    rcases hall (c :: (cs ++ s)) (List.suffix_refl _) with h0 | h0
    · simp [findStringSubmatch, h0, ih']
    · simp [findStringSubmatch, h0]

theorem scanLines_reach (urlParse : GoString → Except GoError Unit)
    (before : List GoString) (line : GoString) (after : List GoString) (r : GoString)
    (hbefore : ∀ l ∈ before, findStringSubmatch vanityRegex l = none
      ∧ stringsContains l "</head>".toList = false)
    (hline : findStringSubmatch vanityRegex line = some r)
    (hparse : urlParse r = Except.ok ()) :
    scanLines urlParse (before ++ line :: after) = r := by
  induction before with
  | nil => simp only [List.nil_append, scanLines, hline, hparse]
  | cons l ls ih =>
    obtain ⟨h1, h2⟩ := hbefore l (List.mem_cons_self _ _)
    have ih' := ih (fun y hy => hbefore y (List.mem_cons_of_mem _ hy))
    simp only [List.cons_append, scanLines, h1, h2]
    simpa using ih'

set_option maxRecDepth 100000 in
/-- C9 (the code at the failing input): on the line made of the directive for
`https://github.com/fyne-io/fyne` followed by a second `meta` tag, the pattern
captures the URL together with the markup up to the last `"` before a `>`;
`resolveVanityURL` returns this text when `url.Parse` accepts it and nothing
otherwise, never the URL; and `scanFile` puts a URL with the markup in it in
the record of the binary. -/
theorem vanityRegex_captures_past_directive :
    findStringSubmatch vanityRegex
        (goImportDirective "fyne.io/fyne".toList "git".toList
            "https://github.com/fyne-io/fyne".toList
          ++ "<meta name=\"go-source\" content=\"fyne.io/fyne _ _ _\">".toList)
      = some ("https://github.com/fyne-io/fyne".toList
          ++ "\"><meta name=\"go-source\" content=\"fyne.io/fyne _ _ _".toList)
    ∧ resolveVanityURL
        (envWith (buildInfoOf "fyne.io/fyne/v2/cmd/fyne" "fyne.io/fyne/v2" "v2.4.0")
          (Except.ok ["<html>".toList, "<head>".toList,
            goImportDirective "fyne.io/fyne".toList "git".toList
                "https://github.com/fyne-io/fyne".toList
              ++ "<meta name=\"go-source\" content=\"fyne.io/fyne _ _ _\">".toList]))
        "fyne.io/fyne/v2/cmd/fyne".toList "fyne.io".toList
      = "https://github.com/fyne-io/fyne".toList
          ++ "\"><meta name=\"go-source\" content=\"fyne.io/fyne _ _ _".toList
    ∧ (∀ urlParse : GoString → Except GoError Unit,
        scanLines urlParse
          [goImportDirective "fyne.io/fyne".toList "git".toList
              "https://github.com/fyne-io/fyne".toList
            ++ "<meta name=\"go-source\" content=\"fyne.io/fyne _ _ _\">".toList]
        ≠ "https://github.com/fyne-io/fyne".toList)
    ∧ scanFile
        (envWith (buildInfoOf "fyne.io/fyne/v2/cmd/fyne" "fyne.io/fyne/v2" "v2.4.0")
          (Except.ok ["<html>".toList, "<head>".toList,
            goImportDirective "fyne.io/fyne".toList "git".toList
                "https://github.com/fyne-io/fyne".toList
              ++ "<meta name=\"go-source\" content=\"fyne.io/fyne _ _ _\">".toList]))
        "/go/bin/fyne".toList { Mode := 0o755 }
      = Except.ok (some
          { filename := "fyne".toList
            packagePath := "fyne.io/fyne/v2/cmd/fyne".toList
            modulePath := "fyne.io/fyne/v2".toList
            moduleVersion := "v2.4.0".toList
            vcsRevision := "?".toList
            repoURL := "https://github.com/fyne-io/fyne\"><meta name=\"go-source\" content=\"fyne.io".toList }) := by
  have h : findStringSubmatch vanityRegex
        (goImportDirective "fyne.io/fyne".toList "git".toList
            "https://github.com/fyne-io/fyne".toList
          ++ "<meta name=\"go-source\" content=\"fyne.io/fyne _ _ _\">".toList)
      = some ("https://github.com/fyne-io/fyne".toList
          ++ "\"><meta name=\"go-source\" content=\"fyne.io/fyne _ _ _".toList) := by decide
  refine ⟨h, by rfl, ?_, by rfl⟩
  intro urlParse
  simp only [scanLines, h]
  split
  · decide
  · decide

/-- Where the pattern does capture the URL: on a line without line break made
of any text, the directive `<meta name="go-import" content="M V U">` and a
rest, where `M` is not empty, `V` is a non-empty word, `U` is `http://` or
`https://` followed by at least one character and has no space, and the rest
has no double quote or has no `>`, the pattern captures exactly `U`; and when
no earlier line of the response matches or contains `</head>` and `url.Parse`
accepts `U`, `resolveVanityURL` returns `U`. -/
theorem vanityRegex_captures_url (env : Env) (packagePath gitProvider : GoString)
    (before after : List GoString) (pre m v proto x post : GoString)
    (hm : m ≠ []) (hv : v ≠ []) (hvw : ∀ c ∈ v, wordClass c = true)
    (hproto : proto = "http://".toList ∨ proto = "https://".toList)
    (hx : x ≠ []) (hsp : ' ' ∉ x)
    (hpost : '"' ∉ post ∨ '>' ∉ post)
    (hnl : '\n' ∉ pre ++ goImportDirective m v (proto ++ x) ++ post)
    (hget : env.httpGet ("https://".toList ++ packagePath)
      = Except.ok (before ++ (pre ++ goImportDirective m v (proto ++ x) ++ post) :: after))
    (hbefore : ∀ l ∈ before, findStringSubmatch vanityRegex l = none
      ∧ stringsContains l "</head>".toList = false)
    (hparse : env.urlParse (proto ++ x) = Except.ok ()) :
    findStringSubmatch vanityRegex (pre ++ goImportDirective m v (proto ++ x) ++ post)
        = some (proto ++ x)
      ∧ resolveVanityURL env packagePath gitProvider = proto ++ x := by
  obtain ⟨z, hz, hzp⟩ : ∃ z : Char, (z = '"' ∨ z = '>') ∧ z ∉ post := by
    rcases hpost with h | h
    · exact ⟨'"', Or.inl rfl, h⟩
    · exact ⟨'>', Or.inr rfl, h⟩
  have hdot : ∀ c : Char, c ≠ '\n' → dotClass c = true := by
    intro c hc
    simp [dotClass, hc]
  have hline : pre ++ goImportDirective m v (proto ++ x) ++ post
      = (pre ++ "<meta name=\"go-import\" content=\"".toList ++ m)
          ++ ' ' :: (v ++ ' ' :: ((proto ++ x) ++ '"' :: '>' :: post)) := by
    simp [goImportDirective]
  have hp : ∀ c ∈ pre ++ "<meta name=\"go-import\" content=\"".toList ++ m,
      dotClass c = true := by
    intro c hc
    apply hdot
    rintro rfl
    apply hnl
    rw [hline]
    exact List.mem_append_left _ hc
  have hmnl : ∀ c ∈ m, dotClass c = true := fun c hc => hp c (List.mem_append_right _ hc)
  have hxnl : ∀ c ∈ x, dotClass c = true := by
    intro c hc
    apply hdot
    rintro rfl
    apply hnl
    rw [hline]
    simp [hc]
  have hfind : findStringSubmatch vanityRegex
      (pre ++ goImportDirective m v (proto ++ x) ++ post) = some (proto ++ x) := by
    rw [List.append_assoc]
    apply findStringSubmatch_of_cases
    · intro t ht
      rw [← List.append_assoc, hline] at ht
      exact vanityRegex_cases _ v proto x post t hp hv hvw hproto hx z hz hzp hsp hxnl ht
    · exact vanityRegex_at_directive m v proto x post hm hmnl hv hvw hproto hx z hz hzp hsp hxnl
  refine ⟨hfind, ?_⟩
  unfold resolveVanityURL
  rw [hget]
  exact scanLines_reach env.urlParse before _ after _ hbefore hfind hparse

/-- The pattern on a page whose third line is an indented directive followed by
`</head><body>`. -/
theorem vanityRegex_captures_url_example :
    findStringSubmatch vanityRegex
        ("  ".toList ++ goImportDirective "fyne.io/fyne".toList "git".toList
            ("https://".toList ++ "github.com/fyne-io/fyne".toList)
          ++ "</head><body>".toList)
        = some ("https://".toList ++ "github.com/fyne-io/fyne".toList)
      ∧ resolveVanityURL
          (envWith (buildInfoOf "fyne.io/fyne/v2/cmd/fyne" "fyne.io/fyne/v2" "v2.4.0")
            (Except.ok ["<html>".toList, "<head>".toList,
              "  ".toList ++ goImportDirective "fyne.io/fyne".toList "git".toList
                  ("https://".toList ++ "github.com/fyne-io/fyne".toList)
                ++ "</head><body>".toList,
              "</body></html>".toList]))
          "fyne.io/fyne/v2/cmd/fyne".toList "fyne.io".toList
        = "https://".toList ++ "github.com/fyne-io/fyne".toList :=
  vanityRegex_captures_url
    (envWith (buildInfoOf "fyne.io/fyne/v2/cmd/fyne" "fyne.io/fyne/v2" "v2.4.0")
      (Except.ok ["<html>".toList, "<head>".toList,
        "  ".toList ++ goImportDirective "fyne.io/fyne".toList "git".toList
            ("https://".toList ++ "github.com/fyne-io/fyne".toList)
          ++ "</head><body>".toList,
        "</body></html>".toList]))
    "fyne.io/fyne/v2/cmd/fyne".toList "fyne.io".toList
    ["<html>".toList, "<head>".toList] ["</body></html>".toList]
    "  ".toList "fyne.io/fyne".toList "git".toList "https://".toList
    "github.com/fyne-io/fyne".toList "</head><body>".toList
    (by decide) (by decide) (by decide) (Or.inr rfl) (by decide) (by decide)
    (Or.inl (by decide)) (by decide) (by rfl) (by decide) (by rfl)

end GobinInfo
